import Mathlib

/-! PrefixSet: a binary trie of IP prefixes

A verification development for `src/prefixset/PrefixSet.h`.

The C++ class `PrefixSet<AddrFamily>` owns a `Node root_`; every `Node` owns two
nullable child pointers and a `terminal` flag.  The heap is a tree (every node is
allocated by `new Node` and stored in exactly one child slot), so a pointer value
is modelled by the tree it points to.

Conventions of the embedding:

* `NodePtr` is a value of type `Node*`: `NULL` or a pointer to a node, given by the
  contents of that node.
* `Node` is a node held by value (the member `root_`, or the node a non-null pointer
  points to).
* a `char` of the address buffer is modelled by its 8-bit pattern, a natural number
  below 256; the bit read by `(bytes[i / 8] >> (7 - (i % 8))) & 1` is the same for a
  signed and an unsigned `char`.
* behaviour the C++ standard leaves undefined, and a failed `assert`, are results
  `Except.error` of type `Fault`.
* the strings produced by `getAll` are `inet_ntop(bytes) ++ "/" ++ prefixLen`; the
  model keeps the pair `(bytes, prefixLen)` that determines the string.
-/

namespace NetworkUtils

/-! ## Address families -/

/-- The two specialisations of `AddrUtil` (lines 10-18). -/
inductive AddrFamily where
  | AF_INET : AddrFamily
  | AF_INET6 : AddrFamily
  deriving DecidableEq, Repr

/-- The constant `AddrUtil<AddrFamily>::kByteLen`. -/
def kByteLen : AddrFamily → Nat
  | .AF_INET => 4
  | .AF_INET6 => 16

/-- The address width in bits, `8 * kByteLen`. -/
def bitWidth (fam : AddrFamily) : Nat := 8 * kByteLen fam

/-! ## Faults -/

/-- The ways an operation can fail to complete. -/
inductive Fault where
  /-- Reading or writing `bytes[k]` with `k` outside the buffer. -/
  | bytesOutOfRange : Fault
  /-- In `remove`: `parent->children[i]` with `parent == NULL` (line 110). -/
  | nullParent : Fault
  /-- In `remove`: control reaches the closing brace of line 116, and the function, which
  returns a `bool`, has no `return` statement there. -/
  | missingReturn : Fault
  /-- The assertion of line 136: a terminal node has no children. -/
  | assertTerminalChildless : Fault
  /-- The assertion of line 145: a non-terminal node is the root or has a child. -/
  | assertNotDangling : Fault
  /-- The assertion of line 166: both arguments of `copyRecur` are non-null. -/
  | assertCopyNonNull : Fault
  deriving DecidableEq, Repr

/-! ## Nodes -/

/-- A value of type `Node*`. -/
inductive NodePtr where
  | NULL : NodePtr
  | ptr (children0 children1 : NodePtr) (terminal : Bool) : NodePtr
  deriving DecidableEq, Repr

/-- A `struct Node` (lines 176-193) held by value. -/
structure Node where
  children0 : NodePtr
  children1 : NodePtr
  terminal : Bool
  deriving DecidableEq, Repr

/-- The pointer to a node: `&node`. -/
def Node.addr (node : Node) : NodePtr := .ptr node.children0 node.children1 node.terminal

/-- The constructor `Node()` (lines 177-180). -/
def Node.ctor : Node := { children0 := .NULL, children1 := .NULL, terminal := false }

/-- The slot `node->children[bit]`, the bit `1` being `true`. -/
def Node.children (node : Node) (bit : Bool) : NodePtr :=
  if bit then node.children1 else node.children0

/-- The assignment `node->children[bit] = p`. -/
def Node.setChildren (node : Node) (bit : Bool) (p : NodePtr) : Node :=
  if bit then { node with children1 := p } else { node with children0 := p }

/-- The method `Node::canCoalesce` (lines 181-184). -/
def Node.canCoalesce (node : Node) : Bool :=
  match node.children0, node.children1 with
  | .ptr _ _ t0, .ptr _ _ t1 => t0 && t1
  | _, _ => false

/-- The method `Node::setTerminal` (lines 185-190): both children are deleted and the
slots set to `NULL`, the flag is set. -/
def Node.setTerminal (_node : Node) : Node :=
  { children0 := .NULL, children1 := .NULL, terminal := true }

/-- The statements `if (node->children[bit] == NULL) node->children[bit] = new Node;
node = node->children[bit];` of `add` (lines 67-70): the node the walk continues on. -/
def NodePtr.orNew : NodePtr → Node
  | .NULL => Node.ctor
  | .ptr c0 c1 t => { children0 := c0, children1 := c1, terminal := t }

/-- The class `PrefixSet<AddrFamily>`: its only data member is `Node root_`. -/
structure PrefixSet where
  root_ : Node
  deriving DecidableEq, Repr

/-- The default constructor (lines 37-38): `root_` is a fresh `Node()`. -/
def PrefixSet.empty : PrefixSet := { root_ := Node.ctor }

/-! ## Bits of an address buffer -/

/-- The expression `(bytes[i / 8] >> (7 - (i % 8))) & 1` (lines 66 and 94), `true` for 1;
`none` when `i / 8` is outside the buffer. -/
def bitAt (bytes : List Nat) (i : Nat) : Option Bool :=
  (bytes.get? (i / 8)).map fun c => ((c >>> (7 - i % 8)) &&& 1) == 1

/-! ## add -/

/-- The body of `add` after parsing (lines 56-81), from the node the walk stands on.
The first counter is the number of loop iterations left, `prefixLen - i`.  The result
is the node after the call and whether the aggregation pass (lines 74-80), which runs
from the nearest ancestor to the root, is still running when it reaches this node's
parent: it is not after `return true` of line 61 and after `break` of line 77. -/
def addLoop (bytes : List Nat) : Nat → Nat → Node → Except Fault (Node × Bool)
  | 0, _, node => .ok (node.setTerminal, true)
  | k + 1, i, node =>
    if node.terminal then .ok (node, false)
    else
      match bitAt bytes i with
      | none => .error .bytesOutOfRange
      | some bit =>
        match addLoop bytes k (i + 1) (node.children bit).orNew with
        | .error e => .error e
        | .ok (child, pass) =>
          if pass && (node.setChildren bit child.addr).canCoalesce
          then .ok ((node.setChildren bit child.addr).setTerminal, true)
          else .ok (node.setChildren bit child.addr, false)

/-- The method `add` after `parsePrefix` succeeded with `bytes` and `prefixLen`
(lines 56-81): the set after the call and the value returned. -/
def PrefixSet.addParsed (T : PrefixSet) (bytes : List Nat) (prefixLen : Int) :
    Except Fault (PrefixSet × Bool) :=
  match addLoop bytes prefixLen.toNat 0 T.root_ with
  | .error e => .error e
  | .ok (root, _) => .ok ({ root_ := root }, true)

/-! ## remove -/

/-- Where control is in `remove` when it leaves a node of the walk. -/
inductive RemoveWalk where
  /-- The loop of lines 93-108 ended with `node` being this node. -/
  | atTarget : RemoveWalk
  /-- A `return` statement was reached below this node (line 106): the node as it is
  then, and the value returned. -/
  | returned (node : Node) (value : Bool) : RemoveWalk
  /-- The deletion of lines 109-115 is done and control is at the closing brace of
  line 116, where no `return` statement follows: the call does not complete.  The node
  is given as it is in memory at that point. -/
  | ranOff (node : Node) : RemoveWalk
  deriving DecidableEq, Repr

/-- The node after the split of lines 96-102: `terminal` cleared and both slots set
to fresh terminal nodes. -/
def Node.split (_node : Node) : Node :=
  { children0 := Node.ctor.setTerminal.addr, children1 := Node.ctor.setTerminal.addr,
    terminal := false }

/-- The body of `remove` after parsing (lines 91-115), from the node the walk stands
on; the first counter is the number of loop iterations left.  After the loop,
`parent->children[bit]` is the slot that holds `node` (the two slots of a node never
hold the same pointer), so the search of lines 109-115 clears that slot; control is
then at the closing brace (`ranOff`). -/
def removeLoop (bytes : List Nat) : Nat → Nat → Node → Except Fault RemoveWalk
  | 0, _, _ => .ok .atTarget
  | k + 1, i, node =>
    match bitAt bytes i with
    | none => .error .bytesOutOfRange
    | some bit =>
      let parent : Node := if node.terminal then node.split else node
      match parent.children bit with
      | .NULL => .ok (.returned parent true)
      | .ptr c0 c1 t =>
        match removeLoop bytes k (i + 1) { children0 := c0, children1 := c1, terminal := t } with
        | .error e => .error e
        | .ok .atTarget => .ok (.ranOff (parent.setChildren bit .NULL))
        | .ok (.returned child value) => .ok (.returned (parent.setChildren bit child.addr) value)
        | .ok (.ranOff child) => .ok (.ranOff (parent.setChildren bit child.addr))

/-- The method `remove` after `parsePrefix` succeeded with `bytes` and `prefixLen`
(lines 91-116): the set after the call and the value returned.  When the loop does not
run, `parent` is still `NULL` at line 110.  When the target is deleted, control runs off
the end of the function, which has no `return` statement there: the behaviour is
undefined and the call does not complete. -/
def PrefixSet.removeParsed (T : PrefixSet) (bytes : List Nat) (prefixLen : Int) :
    Except Fault (PrefixSet × Bool) :=
  match removeLoop bytes prefixLen.toNat 0 T.root_ with
  | .error e => .error e
  | .ok .atTarget => .error .nullParent
  | .ok (.returned root value) => .ok ({ root_ := root }, value)
  | .ok (.ranOff _) => .error .missingReturn

/-- The set in memory when `remove` runs off its end at line 116, `none` when control
does not get there.  This is the set a caller finds when it goes on after the call, as
it does in a build without optimisation. -/
def PrefixSet.removeRanOff (T : PrefixSet) (bytes : List Nat) (prefixLen : Int) :
    Option PrefixSet :=
  match removeLoop bytes prefixLen.toNat 0 T.root_ with
  | .ok (.ranOff root) => some { root_ := root }
  | _ => none

/-! ## getAll -/

/-- The method `getAllRecur` (lines 130-153).  The state is the scratch buffer `bytes`
and the vector `out`; `isRoot` is the test `node == &root_`.  A byte is stored back as
its low 8 bits: `|= b` keeps `(c | b) % 256` and `&= ~b` keeps `c & (255 ^ b)`.  The call
of `inet_ntop` succeeds for both families with a buffer of `INET6_ADDRSTRLEN` bytes, so
the assertion of line 139 holds. -/
def getAllRecur (isRoot : Bool) : NodePtr → List Nat → Nat → List (List Nat × Nat) →
    Except Fault (List Nat × List (List Nat × Nat))
  | .NULL, bytes, _, out => .ok (bytes, out)
  | .ptr c0 c1 terminal, bytes, prefixLen, out =>
    if terminal then
      if c0 = .NULL ∧ c1 = .NULL then .ok (bytes, out ++ [(bytes, prefixLen)])
      else .error .assertTerminalChildless
    else if ¬ (isRoot = true ∨ c0 ≠ .NULL ∨ c1 ≠ .NULL) then .error .assertNotDangling
    else
      match getAllRecur false c0 bytes (prefixLen + 1) out with
      | .error e => .error e
      | .ok (bytes1, out1) =>
        match bytes1.get? (prefixLen / 8) with
        | none => .error .bytesOutOfRange
        | some c =>
          match getAllRecur false c1
              (bytes1.set (prefixLen / 8) ((c ||| (1 <<< (7 - prefixLen % 8))) % 256))
              (prefixLen + 1) out1 with
          | .error e => .error e
          | .ok (bytes2, out2) =>
            match bytes2.get? (prefixLen / 8) with
            | none => .error .bytesOutOfRange
            | some d =>
              .ok (bytes2.set (prefixLen / 8) (d &&& (255 ^^^ (1 <<< (7 - prefixLen % 8)))),
                   out2)

/-- The method `getAll` (lines 118-123). -/
def PrefixSet.getAll (fam : AddrFamily) (T : PrefixSet) : Except Fault (List (List Nat × Nat)) :=
  match getAllRecur true T.root_.addr (List.replicate (kByteLen fam) 0) 0 [] with
  | .error e => .error e
  | .ok (_, out) => .ok out

/-! ## clear and copy -/

/-- The method `clearRecur` (lines 155-163): the node pointed to after the call.  The
recursive calls change only the two subtrees, which are deleted right after. -/
def clearRecur : NodePtr → NodePtr
  | .NULL => .NULL
  | .ptr c0 c1 terminal =>
    let _cleared0 := clearRecur c0
    let _cleared1 := clearRecur c1
    .ptr .NULL .NULL terminal

/-- The method `clear` (lines 125-127). -/
def PrefixSet.clear (T : PrefixSet) : PrefixSet :=
  match clearRecur T.root_.addr with
  | .NULL => T
  | .ptr c0 c1 t => { root_ := { children0 := c0, children1 := c1, terminal := t } }

/-- The method `copyRecur` (lines 165-174): the node `lhs` after the call. -/
def copyRecur : NodePtr → NodePtr → Except Fault NodePtr
  | .ptr l0 l1 _, .ptr r0 r1 rt =>
    let slot0 : Except Fault NodePtr := match r0 with
      | .NULL => .ok l0
      | .ptr a b t => copyRecur Node.ctor.addr (.ptr a b t)
    let slot1 : Except Fault NodePtr := match r1 with
      | .NULL => .ok l1
      | .ptr a b t => copyRecur Node.ctor.addr (.ptr a b t)
    match slot0, slot1 with
    | .ok c0, .ok c1 => .ok (.ptr c0 c1 rt)
    | .error e, _ => .error e
    | _, .error e => .error e
  | _, _ => .error .assertCopyNonNull

/-- The assignment `lhs = rhs` (lines 44-47) of two distinct objects: the set `lhs` after
the call.  The assignment of an object to itself is `PrefixSet.assignSelf`. -/
def PrefixSet.assign (lhs rhs : PrefixSet) : Except Fault PrefixSet :=
  match copyRecur lhs.root_.addr rhs.root_.addr with
  | .ok (.ptr c0 c1 t) => .ok { root_ := { children0 := c0, children1 := c1, terminal := t } }
  | .ok .NULL => .error .assertCopyNonNull
  | .error e => .error e

/-- The slot `children[i]` of the root after `copyRecur(&root_, &root_)` (lines 168-173),
where `lhs` and `rhs` are one node: a slot that is not `NULL` is overwritten by a new
node, and the inner call `copyRecur(lhs->children[i], rhs->children[i])` then copies that
new node, which has no child, onto itself. -/
def selfCopiedSlot : NodePtr → NodePtr
  | .NULL => .NULL
  | .ptr _ _ _ => Node.ctor.addr

/-- The assignment `x = x` (lines 44-47) of an object to itself: the set after the call.
The flag of the root is assigned to itself and each child of the root is replaced by a
new node with no children. -/
def PrefixSet.assignSelf (T : PrefixSet) : PrefixSet :=
  { root_ := { children0 := selfCopiedSlot T.root_.children0,
               children1 := selfCopiedSlot T.root_.children1,
               terminal := T.root_.terminal } }

/-! ## parsePrefix, and add and remove on text

A `std::string` is modelled by the list of its characters.  The functions `sscanf` and
`inet_pton` belong to the C library: `sscanf` with the format `"%u"` is modelled after the
C standard, `inet_pton` is a parameter `pton` of the functions that use it (the text to
the bytes of the address, `none` when it returns a value other than 1). -/

/-- The member `std::string::find(c)`: the position of the first `c`, `none` for `npos`. -/
def find (text : List Char) (c : Char) : Option Nat :=
  if text.indexOf c < text.length then some (text.indexOf c) else none

/-- The view `s.c_str()` as a C string: the characters before the first NUL. -/
def cStr (s : List Char) : List Char := s.takeWhile fun c => c ≠ Char.ofNat 0

/-- The predicate `isspace` in the C locale. -/
def isSpace (c : Char) : Bool := c = ' ' || (9 ≤ c.toNat && c.toNat ≤ 13)

/-- The value of a run of decimal digits. -/
def digitsValue (ds : List Char) : Nat := ds.foldl (fun acc c => 10 * acc + (c.toNat - 48)) 0

/-- The input field that `sscanf` converts for the directive `%u`: leading white space is
skipped, an optional sign is read, and the field is the longest run of decimal digits
that follows. -/
def unsignedField (s : List Char) : List Char :=
  let body := s.dropWhile isSpace
  (if body.head? = some '-' ∨ body.head? = some '+' then body.tail else body).takeWhile
    Char.isDigit

/-- The call `sscanf(s, "%u", prefixLen) == 1` and the `int` it stores: the call yields 1
exactly when the field is not empty.  The value is converted as by `strtoul`, with an
`unsigned long` of 64 bits: a value that does not fit is replaced by `ULONG_MAX`, any
other is negated modulo `2 ^ 64` when the sign is a minus.  The result is kept as the 32
bits of an `unsigned`, and read back through the `int` it was stored in. -/
def sscanfU (s : List Char) : Option Int :=
  let negative := (s.dropWhile isSpace).head? = some '-'
  let digits := unsignedField s
  if digits = [] then none
  else
    let value : Nat := digitsValue digits
    let ul : Nat :=
      if 2 ^ 64 ≤ value then 2 ^ 64 - 1
      else if negative then (2 ^ 64 - value) % 2 ^ 64
      else value
    let u : Nat := ul % 2 ^ 32
    some (if u < 2 ^ 31 then (u : Int) else (u : Int) - 2 ^ 32)

/-- The expression returned by `parsePrefix` (lines 32-33), from the strings `ip` and
`sPrefixLen`: `sscanf` reads `sPrefixLen.c_str()` and then `inet_pton` reads
`ip.c_str()`. -/
def parseParts (pton : List Char → Option (List Nat)) (ip sPrefixLen : List Char) :
    Option (List Nat × Int) :=
  match sscanfU (cStr sPrefixLen) with
  | none => none
  | some prefixLen =>
    match pton (cStr ip) with
    | none => none
    | some bytes => some (bytes, prefixLen)

/-- The method `parsePrefix` (lines 25-34): the bytes written by `inet_pton` and the
`int` written by `sscanf`, `none` for `false`. -/
def parsePrefix (pton : List Char → Option (List Nat)) (text : List Char) :
    Option (List Nat × Int) :=
  match find text '/' with
  | none => none
  | some slashPos => parseParts pton (text.take slashPos) (text.drop (slashPos + 1))

/-- The method `add` (lines 49-82). -/
def PrefixSet.add (pton : List Char → Option (List Nat)) (T : PrefixSet) (text : List Char) :
    Except Fault (PrefixSet × Bool) :=
  match parsePrefix pton text with
  | none => .ok (T, false)
  | some (bytes, prefixLen) => T.addParsed bytes prefixLen

/-- The method `remove` (lines 84-116). -/
def PrefixSet.remove (pton : List Char → Option (List Nat)) (T : PrefixSet)
    (text : List Char) : Except Fault (PrefixSet × Bool) :=
  match parsePrefix pton text with
  | none => .ok (T, false)
  | some (bytes, prefixLen) => T.removeParsed bytes prefixLen

/-- The function `inet_pton(AF_INET, text, bytes)` of the C library on one part of a
dotted-decimal address: one to three decimal digits, no leading zero before another
digit, value at most 255. -/
def octet (part : List Char) : Option Nat :=
  if part ≠ [] ∧ part.length ≤ 3 ∧ part.all Char.isDigit ∧
      (part.head? = some '0' → part.length = 1) ∧ digitsValue part ≤ 255
  then some (digitsValue part) else none

/-- The function `inet_pton(AF_INET, text, bytes)` of the C library: four parts
separated by dots. -/
def inetPton4 (text : List Char) : Option (List Nat) :=
  match (text.splitOn '.').map octet with
  | [some a, some b, some c, some d] => some [a, b, c, d]
  | _ => none

/-! ## Specification vocabulary -/

/-- The bit `i` of an address buffer, most-significant bit of each byte first
(`false` outside the buffer). -/
def bitOf (bytes : List Nat) (i : Nat) : Bool := (bitAt bytes i).getD false

/-- The bits `i, i+1, ..., i+k-1` of an address buffer. -/
def bitsFrom (bytes : List Nat) : Nat → Nat → List Bool
  | _, 0 => []
  | i, k + 1 => bitOf bytes i :: bitsFrom bytes (i + 1) k

/-- Whether some terminal node lies on the path that starts at the given node and
follows the given bits. -/
def coveredPath : List Bool → NodePtr → Bool
  | _, .NULL => false
  | [], .ptr _ _ t => t
  | bit :: bits, .ptr c0 c1 t => t || coveredPath bits (if bit then c1 else c0)

/-- An address of the family is covered by the set when some terminal node lies on its
bit path from the root. -/
def PrefixSet.covers (fam : AddrFamily) (T : PrefixSet) (addr : List Nat) : Bool :=
  coveredPath (bitsFrom addr 0 (bitWidth fam)) T.root_.addr

/-- A terminal node of the set lies on the bit path of the prefix `bytes/n`, at a depth
of at most `n`. -/
def PrefixSet.coversPrefix (T : PrefixSet) (bytes : List Nat) (n : Nat) : Bool :=
  coveredPath (bitsFrom bytes 0 n) T.root_.addr

/-- Walking the bits from the given node, a required child is missing before the end of
the path is reached, and no terminal node is met on the way. -/
def absentOnPath : List Bool → NodePtr → Bool
  | _, .NULL => true
  | [], .ptr _ _ _ => false
  | bit :: bits, .ptr c0 c1 t => !t && absentOnPath bits (if bit then c1 else c0)

/-- The prefix `bytes/n` is absent from the set: walking its bits from the root, a
required child is missing before depth `n` is reached and no terminal node is met. -/
def PrefixSet.absent (T : PrefixSet) (bytes : List Nat) (n : Nat) : Bool :=
  absentOnPath (bitsFrom bytes 0 n) T.root_.addr

/-- Invariant A below a pointer: every terminal node has two `NULL` slots. -/
def terminalsChildless : NodePtr → Bool
  | .NULL => true
  | .ptr c0 c1 t =>
    (!t || (decide (c0 = .NULL) && decide (c1 = .NULL))) &&
      (terminalsChildless c0 && terminalsChildless c1)

/-- Invariant A of a set. -/
def PrefixSet.invariantA (T : PrefixSet) : Bool := terminalsChildless T.root_.addr

/-- Whether the pointer is non-null and points to a terminal node. -/
def NodePtr.isTerminal : NodePtr → Bool
  | .NULL => false
  | .ptr _ _ t => t

/-- Canonical aggregation below a pointer: no node has both children present and both
terminal. -/
def noTerminalSiblings : NodePtr → Bool
  | .NULL => true
  | .ptr c0 c1 _ =>
    !(c0.isTerminal && c1.isTerminal) && (noTerminalSiblings c0 && noTerminalSiblings c1)

/-- Canonical aggregation of a set. -/
def PrefixSet.aggregated (T : PrefixSet) : Bool := noTerminalSiblings T.root_.addr

/-- Invariant B below a pointer to a node other than the root: every non-terminal node
has at least one present child. -/
def noDangling : NodePtr → Bool
  | .NULL => true
  | .ptr c0 c1 t =>
    (t || !(decide (c0 = .NULL) && decide (c1 = .NULL))) && (noDangling c0 && noDangling c1)

/-- Invariant B of a set: the root is exempt. -/
def PrefixSet.invariantB (T : PrefixSet) : Bool :=
  noDangling T.root_.children0 && noDangling T.root_.children1

/-- Every non-terminal node below the pointer has at least one more level below it
within `k` levels: a node at the last level is terminal. -/
def nonTerminalsAbove : Nat → NodePtr → Bool
  | _, .NULL => true
  | k, .ptr c0 c1 t =>
    t || (decide (0 < k) && (nonTerminalsAbove (k - 1) c0 && nonTerminalsAbove (k - 1) c1))

/-- Every non-terminal node of the set is at a depth below the address width. -/
def PrefixSet.withinWidth (fam : AddrFamily) (T : PrefixSet) : Bool :=
  nonTerminalsAbove (bitWidth fam) T.root_.addr

/-- An address buffer read as a big-endian unsigned integer. -/
def addrValue (bytes : List Nat) : Nat := bytes.foldl (fun acc c => acc * 256 + c) 0

/-- The sets reachable from the empty set by calls of `add` and `remove` on prefixes
of the family.  A call of `remove` counts when it returns, and also when it runs off its
end and the caller goes on with the set left in memory. -/
inductive Reachable (fam : AddrFamily) : PrefixSet → Prop where
  | empty : Reachable fam PrefixSet.empty
  | add (T T' : PrefixSet) (bytes : List Nat) (n : Nat) (r : Bool) :
      Reachable fam T → bytes.length = kByteLen fam → n ≤ bitWidth fam →
      T.addParsed bytes n = .ok (T', r) → Reachable fam T'
  | remove (T T' : PrefixSet) (bytes : List Nat) (n : Nat) (r : Bool) :
      Reachable fam T → bytes.length = kByteLen fam → n ≤ bitWidth fam →
      T.removeParsed bytes n = .ok (T', r) → Reachable fam T'
  | removeRanOff (T T' : PrefixSet) (bytes : List Nat) (n : Nat) :
      Reachable fam T → bytes.length = kByteLen fam → n ≤ bitWidth fam →
      T.removeRanOff bytes n = some T' → Reachable fam T'

/-- The sets reachable from the empty set by calls of `add`, `remove` and `clear`.  A call
of `remove` counts when it returns, and also when it runs off its end and the caller goes
on with the set left in memory. -/
inductive ReachableWithClear (fam : AddrFamily) : PrefixSet → Prop where
  | empty : ReachableWithClear fam PrefixSet.empty
  | add (T T' : PrefixSet) (bytes : List Nat) (n : Nat) (r : Bool) :
      ReachableWithClear fam T → bytes.length = kByteLen fam → n ≤ bitWidth fam →
      T.addParsed bytes n = .ok (T', r) → ReachableWithClear fam T'
  | remove (T T' : PrefixSet) (bytes : List Nat) (n : Nat) (r : Bool) :
      ReachableWithClear fam T → bytes.length = kByteLen fam → 1 ≤ n → n ≤ bitWidth fam →
      T.removeParsed bytes n = .ok (T', r) → ReachableWithClear fam T'
  | removeRanOff (T T' : PrefixSet) (bytes : List Nat) (n : Nat) :
      ReachableWithClear fam T → bytes.length = kByteLen fam → 1 ≤ n → n ≤ bitWidth fam →
      T.removeRanOff bytes n = some T' → ReachableWithClear fam T'
  | clear (T : PrefixSet) : ReachableWithClear fam T → ReachableWithClear fam T.clear

/-- The address buffer whose bits, most-significant bit of each byte first, are the given
ones, eight to a byte. -/
def bytesOfBits : List Bool → List Nat
  | b0 :: b1 :: b2 :: b3 :: b4 :: b5 :: b6 :: b7 :: rest =>
    (128 * b0.toNat + 64 * b1.toNat + 32 * b2.toNat + 16 * b3.toNat + 8 * b4.toNat
      + 4 * b5.toNat + 2 * b6.toNat + b7.toNat) :: bytesOfBits rest
  | _ => []

/-- The sets reachable from the empty set by calls of `add` alone on prefixes of the
family. -/
inductive ReachableByAdd (fam : AddrFamily) : PrefixSet → Prop where
  | empty : ReachableByAdd fam PrefixSet.empty
  | add (T T' : PrefixSet) (bytes : List Nat) (n : Nat) (r : Bool) :
      ReachableByAdd fam T → bytes.length = kByteLen fam → n ≤ bitWidth fam →
      T.addParsed bytes n = .ok (T', r) → ReachableByAdd fam T'

/-! ## The walks over an explicit bit path

Auxiliary functions for the proofs: `addLoop` and `removeLoop` with the bits taken from
a list instead of the buffer.  `addLoop_eq_addPath` and `removeLoop_eq_removePath`
relate them to the loops. -/

/-- The walk of `addLoop` along a list of bits. -/
def addPath : List Bool → Node → Node × Bool
  | [], node => (node.setTerminal, true)
  | bit :: bits, node =>
    if node.terminal then (node, false)
    else
      if (addPath bits (node.children bit).orNew).2 &&
          (node.setChildren bit (addPath bits (node.children bit).orNew).1.addr).canCoalesce
      then ((node.setChildren bit (addPath bits (node.children bit).orNew).1.addr).setTerminal,
            true)
      else (node.setChildren bit (addPath bits (node.children bit).orNew).1.addr, false)

/-- The pointer a parent holds after `remove` left the child: `NULL` when the child was
the target. -/
def RemoveWalk.toPtr : RemoveWalk → NodePtr
  | .atTarget => .NULL
  | .returned node _ => node.addr
  | .ranOff node => node.addr

/-- The walk of `removeLoop` along a list of bits, as the pointer the parent holds
afterwards. -/
def removePath : List Bool → NodePtr → NodePtr
  | _, .NULL => .NULL
  | [], .ptr _ _ _ => .NULL
  | bit :: bits, .ptr c0 c1 t =>
    if bit then
      .ptr (if t then Node.ctor.setTerminal.addr else c0)
        (removePath bits (if t then Node.ctor.setTerminal.addr else c1)) false
    else
      .ptr (removePath bits (if t then Node.ctor.setTerminal.addr else c0))
        (if t then Node.ctor.setTerminal.addr else c1) false

/-- The scratch buffer of `getAllRecur` at depth `d`: every byte is below 256, and every
bit at a position `d` or later is zero. -/
def BufferClearFrom (bytes : List Nat) (d : Nat) : Prop :=
  ∀ k c, bytes.get? k = some c →
    c < 256 ∧ (d ≤ 8 * k → c = 0) ∧ (k = d / 8 → c % 2 ^ (8 - d % 8) = 0)

/-- The entries of a result of `getAll` are in strictly ascending order of their
addresses read as big-endian unsigned integers. -/
def AscendingAddresses (out : List (List Nat × Nat)) : Prop :=
  out.Pairwise fun e1 e2 => addrValue e1.1 < addrValue e2.1

/-! ## Example sets -/

/-- The set `[0.0.0.0/0]`: the root is terminal. -/
def everything : PrefixSet := { root_ := Node.ctor.setTerminal }

/-- The set `[0.0.0.0/1]`. -/
def lowerHalf : PrefixSet :=
  { root_ := { children0 := Node.ctor.setTerminal.addr, children1 := .NULL, terminal := false } }

/-- The set `[128.0.0.0/1]`. -/
def upperHalf : PrefixSet :=
  { root_ := { children0 := .NULL, children1 := Node.ctor.setTerminal.addr, terminal := false } }

/-- The set `[0.0.0.0/2, 128.0.0.0/1]`: an entry in the 0-branch and one in the 1-branch. -/
def twoBranches : PrefixSet :=
  { root_ := { children0 := .ptr Node.ctor.setTerminal.addr .NULL false,
               children1 := Node.ctor.setTerminal.addr, terminal := false } }

/-- The set `[10.0.0.0/24]`, as `add` builds it from the empty set. -/
def slash24 : PrefixSet :=
  match PrefixSet.empty.addParsed [10, 0, 0, 0] 24 with
  | .ok (T, _) => T
  | .error _ => PrefixSet.empty

/-- The set built by `add("0.0.0.0/2")`: the root, a non-terminal node at depth 1 and a
terminal node at depth 2. -/
def slash2 : PrefixSet :=
  { root_ := { children0 := .ptr Node.ctor.setTerminal.addr .NULL false, children1 := .NULL,
               terminal := false } }

/-- The set in memory after `add("0.0.0.0/2")` and the deletion done by
`remove("0.0.0.0/2")`: the node at depth 1 is still there, with no children. -/
def slash2Removed : PrefixSet :=
  { root_ := { children0 := Node.ctor.addr, children1 := .NULL, terminal := false } }

/-! ## The loops and the walks over a bit path -/

theorem bitAt_eq_some (bytes : List Nat) (i : Nat) (h : i < 8 * bytes.length) :
    bitAt bytes i = some (bitOf bytes i) := by
  have hk : i / 8 < bytes.length := by omega
  simp [bitOf, bitAt, List.getElem?_eq_getElem hk]

@[simp] theorem orNew_addr_ptr (a b : NodePtr) (t : Bool) :
    (NodePtr.ptr a b t).orNew.addr = .ptr a b t := rfl

@[simp] theorem addr_orNew (node : Node) : node.addr.orNew = node := rfl

theorem addLoop_eq_addPath (bytes : List Nat) (k : Nat) :
    ∀ (i : Nat) (node : Node), i + k ≤ 8 * bytes.length →
      addLoop bytes k i node = .ok (addPath (bitsFrom bytes i k) node) := by
  induction k with
  | zero => intro i node _; rfl
  | succ k ih =>
    intro i node h
    have hb := bitAt_eq_some bytes i (by omega)
    have hrec := ih (i + 1) (node.children (bitOf bytes i)).orNew (by omega)
    simp only [addLoop, bitsFrom, addPath, hb, hrec]
    split <;> [rfl; (split <;> rfl)]

@[simp] theorem removePath_NULL (bits : List Bool) : removePath bits .NULL = .NULL := by
  cases bits <;> rfl

theorem removePath_cons (bit : Bool) (bits : List Bool) (node : Node) :
    removePath (bit :: bits) node.addr =
      ((if node.terminal then node.split else node).setChildren bit
        (removePath bits ((if node.terminal then node.split else node).children bit))).addr := by
  obtain ⟨c0, c1, t⟩ := node
  cases t <;> cases bit <;> rfl

theorem setChildren_children (parent : Node) (bit : Bool) :
    parent.setChildren bit (parent.children bit) = parent := by
  cases bit <;> rfl

theorem removeLoop_eq_removePath (bytes : List Nat) (k : Nat) :
    ∀ (i : Nat) (node : Node), i + k ≤ 8 * bytes.length →
      ∃ w, removeLoop bytes k i node = .ok w ∧
        w.toPtr = removePath (bitsFrom bytes i k) node.addr ∧
        (0 < k → (∃ n, w = .returned n true) ∨ (∃ n, w = .ranOff n)) := by
  induction k with
  | zero => intro i node _; exact ⟨.atTarget, rfl, rfl, by simp⟩
  | succ k ih =>
    intro i node h
    have hb := bitAt_eq_some bytes i (by omega)
    simp only [removeLoop, bitsFrom, hb, removePath_cons]
    generalize (if node.terminal = true then node.split else node) = parent
    cases hc : parent.children (bitOf bytes i) with
    | NULL =>
      refine ⟨_, rfl, ?_, fun _ => Or.inl ⟨_, rfl⟩⟩
      rw [removePath_NULL, ← hc, setChildren_children]; rfl
    | ptr a b t =>
      obtain ⟨w, hw, hptr, hshape⟩ := ih (i + 1) ⟨a, b, t⟩ (by omega)
      simp only [hw]
      cases w with
      | atTarget =>
        have hptr2 : removePath (bitsFrom bytes (i + 1) k) (.ptr a b t) = .NULL := hptr.symm
        exact ⟨_, rfl, by rw [hptr2]; rfl, fun _ => Or.inr ⟨_, rfl⟩⟩
      | returned child value =>
        have hptr2 : removePath (bitsFrom bytes (i + 1) k) (.ptr a b t) = child.addr := hptr.symm
        have hvalue : value = true := by
          cases k with
          | zero => simp [removeLoop] at hw
          | succ k =>
            rcases hshape (by omega) with ⟨n, hn⟩ | ⟨n, hn⟩
            · simp only [RemoveWalk.returned.injEq] at hn; exact hn.2
            · simp at hn
        subst hvalue
        exact ⟨_, rfl, by rw [hptr2]; rfl, fun _ => Or.inl ⟨_, rfl⟩⟩
      | ranOff child =>
        have hptr2 : removePath (bitsFrom bytes (i + 1) k) (.ptr a b t) = child.addr := hptr.symm
        exact ⟨_, rfl, by rw [hptr2]; rfl, fun _ => Or.inr ⟨_, rfl⟩⟩

theorem coveredPath_cons_addr (a : Bool) (as : List Bool) (node : Node) :
    coveredPath (a :: as) node.addr = (node.terminal || coveredPath as (node.children a)) := by
  cases a <;> rfl

theorem coveredPath_of_isTerminal (as : List Bool) (p : NodePtr) (h : p.isTerminal = true) :
    coveredPath as p = true := by
  cases p with
  | NULL => simp [NodePtr.isTerminal] at h
  | ptr a b t =>
    simp only [NodePtr.isTerminal] at h
    subst h
    cases as <;> simp [coveredPath]

theorem coveredPath_orNew_addr (as : List Bool) (p : NodePtr) :
    coveredPath as p.orNew.addr = coveredPath as p := by
  cases p with
  | NULL => cases as <;> simp [coveredPath, NodePtr.orNew, Node.ctor, Node.addr]
  | ptr a b t => rfl

@[simp] theorem children_setChildren_same (node : Node) (bit : Bool) (p : NodePtr) :
    (node.setChildren bit p).children bit = p := by
  cases bit <;> rfl

theorem children_setChildren_ne (node : Node) (a bit : Bool) (p : NodePtr) (h : a ≠ bit) :
    (node.setChildren bit p).children a = node.children a := by
  cases bit <;> cases a <;> first | rfl | exact absurd rfl h

@[simp] theorem terminal_setChildren (node : Node) (bit : Bool) (p : NodePtr) :
    (node.setChildren bit p).terminal = node.terminal := by
  cases bit <;> rfl

theorem canCoalesce_children (node : Node) (h : node.canCoalesce = true) (a : Bool) :
    (node.children a).isTerminal = true := by
  obtain ⟨c0, c1, t⟩ := node
  cases c0 <;> cases c1 <;> simp [Node.canCoalesce] at h
  cases a <;> simp [Node.children, NodePtr.isTerminal, h]

theorem addPath_cases (bit : Bool) (bits : List Bool) (node : Node) :
    (node.terminal = true ∧ addPath (bit :: bits) node = (node, false)) ∨
    (node.terminal = false ∧ (addPath bits (node.children bit).orNew).2 = true ∧
      (node.setChildren bit (addPath bits (node.children bit).orNew).1.addr).canCoalesce = true ∧
      addPath (bit :: bits) node =
        ((node.setChildren bit (addPath bits (node.children bit).orNew).1.addr).setTerminal,
          true)) ∨
    (node.terminal = false ∧
      ((addPath bits (node.children bit).orNew).2 = false ∨
        (node.setChildren bit (addPath bits (node.children bit).orNew).1.addr).canCoalesce
          = false) ∧
      addPath (bit :: bits) node =
        (node.setChildren bit (addPath bits (node.children bit).orNew).1.addr, false)) := by
  cases ht : node.terminal with
  | true => left; simp [addPath, ht]
  | false =>
    right
    cases hp : (addPath bits (node.children bit).orNew).2 <;>
      cases hc : (node.setChildren bit
        (addPath bits (node.children bit).orNew).1.addr).canCoalesce <;>
      simp [addPath, ht, hp, hc]

theorem coveredPath_addPath (bits : List Bool) :
    ∀ (as : List Bool) (node : Node), bits.length ≤ as.length →
      coveredPath as (addPath bits node).1.addr =
        (coveredPath as node.addr || bits.isPrefixOf as) := by
  induction bits with
  | nil =>
    intro as node _
    simp [addPath, coveredPath_of_isTerminal, Node.setTerminal, Node.addr, NodePtr.isTerminal]
  | cons bit bits ih =>
    intro as node hlen
    cases as with
    | nil => simp at hlen
    | cons a as =>
      have hlen2 : bits.length ≤ as.length := by simpa using hlen
      have hrec := ih as (node.children bit).orNew hlen2
      rw [coveredPath_orNew_addr] at hrec
      rcases addPath_cases bit bits node with ⟨ht, h⟩ | ⟨ht, -, hc, h⟩ | ⟨ht, -, h⟩ <;> rw [h]
      · simp [ht, coveredPath_cons_addr]
      · have hterm := canCoalesce_children _ hc a
        rw [coveredPath_of_isTerminal _ _ (by rfl)]
        by_cases hab : a = bit
        · subst hab
          simp only [children_setChildren_same] at hterm
          have := coveredPath_of_isTerminal as _ hterm
          rw [hrec] at this
          simp only [Bool.or_eq_true] at this
          simp only [coveredPath_cons_addr, List.isPrefixOf, beq_self_eq_true, Bool.true_and,
            Bool.true_eq, Bool.or_eq_true]
          tauto
        · rw [children_setChildren_ne _ _ _ _ hab] at hterm
          simp [coveredPath_cons_addr, coveredPath_of_isTerminal as _ hterm]
      · by_cases hab : a = bit
        · subst hab
          simp [coveredPath_cons_addr, hrec, ht, List.isPrefixOf]
        · have hba : (bit == a) = false := by simpa using fun h => hab h.symm
          simp [coveredPath_cons_addr, children_setChildren_ne _ _ _ _ hab, ht, hba,
            List.isPrefixOf]

@[simp] theorem length_bitsFrom (bytes : List Nat) (k : Nat) :
    ∀ i : Nat, (bitsFrom bytes i k).length = k := by
  induction k with
  | zero => intro i; rfl
  | succ k ih => intro i; simp [bitsFrom, ih]

theorem isPrefixOf_bitsFrom (p a : List Nat) (n : Nat) :
    ∀ (i m : Nat), n ≤ m →
      ((bitsFrom p i n).isPrefixOf (bitsFrom a i m) = true ↔
        ∀ j, j < n → bitOf a (i + j) = bitOf p (i + j)) := by
  induction n with
  | zero => intro i m _; simp [bitsFrom]
  | succ n ih =>
    intro i m hm
    obtain ⟨m, rfl⟩ : ∃ m', m = m' + 1 := ⟨m - 1, by omega⟩
    simp only [bitsFrom, List.isPrefixOf, Bool.and_eq_true, beq_iff_eq, ih (i + 1) m (by omega)]
    constructor
    · rintro ⟨h0, hrest⟩ j hj
      cases j with
      | zero => exact h0.symm
      | succ j =>
        have := hrest j (by omega)
        rwa [show i + 1 + j = i + (j + 1) by omega] at this
    · intro h
      refine ⟨(h 0 (by omega)).symm, fun j hj => ?_⟩
      have := h (j + 1) (by omega)
      rwa [show i + (j + 1) = i + 1 + j by omega] at this

theorem addParsed_eq (T : PrefixSet) (bytes : List Nat) (n : Nat) (h : n ≤ 8 * bytes.length) :
    T.addParsed bytes n = .ok ({ root_ := (addPath (bitsFrom bytes 0 n) T.root_).1 }, true) := by
  simp [PrefixSet.addParsed, addLoop_eq_addPath bytes n 0 T.root_ (by omega)]

/-- C1: insertion is set union.  For every set `T` and every prefix `bytes/n` of the
family with `0 ≤ n ≤ W`, `add` completes and returns `true`, and an address of the family
is covered by the set after the call exactly when it was covered by `T` or its first `n`
bits equal the first `n` bits of `bytes`. -/
theorem add_is_union (fam : AddrFamily) (T : PrefixSet) (bytes : List Nat) (n : Nat)
    (hlen : bytes.length = kByteLen fam) (hn : n ≤ bitWidth fam) :
    ∃ T' : PrefixSet, T.addParsed bytes n = .ok (T', true) ∧
      ∀ addr : List Nat, addr.length = kByteLen fam →
        (T'.covers fam addr = true ↔
          (T.covers fam addr = true ∨ ∀ j, j < n → bitOf addr j = bitOf bytes j)) := by
  refine ⟨_, addParsed_eq T bytes n (by rw [hlen]; exact hn), fun addr _ => ?_⟩
  have hcov := coveredPath_addPath (bitsFrom bytes 0 n) (bitsFrom addr 0 (bitWidth fam)) T.root_
    (by simpa using hn)
  have hpre := isPrefixOf_bitsFrom bytes addr n 0 (bitWidth fam) hn
  simp only [Nat.zero_add] at hpre
  simp only [PrefixSet.covers, hcov, Bool.or_eq_true, hpre]

@[simp] theorem coveredPath_terminalNode (as : List Bool) :
    coveredPath as Node.ctor.setTerminal.addr = true :=
  coveredPath_of_isTerminal as _ (by rfl)

theorem coveredPath_removePath (bits : List Bool) :
    ∀ (as : List Bool) (p : NodePtr), bits.length ≤ as.length →
      coveredPath as (removePath bits p) = (coveredPath as p && !bits.isPrefixOf as) := by
  induction bits with
  | nil =>
    intro as p _
    cases p <;> simp [removePath, coveredPath]
  | cons bit bits ih =>
    intro as p hlen
    cases as with
    | nil => simp at hlen
    | cons a as =>
      have hlen2 : bits.length ≤ as.length := by simpa using hlen
      cases p with
      | NULL => simp [coveredPath]
      | ptr c0 c1 t =>
        cases bit <;> cases a <;> cases t <;>
          simp [removePath, coveredPath, ih as _ hlen2, List.isPrefixOf]

theorem removeParsed_cases (T : PrefixSet) (bytes : List Nat) (n : Nat) (h1 : 1 ≤ n)
    (h : n ≤ 8 * bytes.length) :
    ∃ root : Node, root.addr = removePath (bitsFrom bytes 0 n) T.root_.addr ∧
      ((T.removeParsed bytes n = .ok ({ root_ := root }, true) ∧
          T.removeRanOff bytes n = none) ∨
        (T.removeParsed bytes n = .error .missingReturn ∧
          T.removeRanOff bytes n = some { root_ := root })) := by
  obtain ⟨w, hw, hptr, hshape⟩ := removeLoop_eq_removePath bytes n 0 T.root_ (by omega)
  rcases hshape (by omega) with ⟨root, rfl⟩ | ⟨root, rfl⟩
  · exact ⟨root, hptr, Or.inl ⟨by simp [PrefixSet.removeParsed, hw],
      by simp [PrefixSet.removeRanOff, hw]⟩⟩
  · exact ⟨root, hptr, Or.inr ⟨by simp [PrefixSet.removeParsed, hw],
      by simp [PrefixSet.removeRanOff, hw]⟩⟩

theorem root_of_removeParsed (T T' : PrefixSet) (bytes : List Nat) (n : Nat) (r : Bool)
    (h1 : 1 ≤ n) (h : n ≤ 8 * bytes.length) (hrun : T.removeParsed bytes n = .ok (T', r)) :
    T'.root_.addr = removePath (bitsFrom bytes 0 n) T.root_.addr := by
  obtain ⟨root, hroot, ⟨hok, -⟩ | ⟨herr, -⟩⟩ := removeParsed_cases T bytes n h1 h
  · rw [hok] at hrun
    simp only [Except.ok.injEq, Prod.mk.injEq] at hrun
    rw [← hrun.1]; exact hroot
  · rw [herr] at hrun; simp at hrun

theorem root_of_removeRanOff (T T' : PrefixSet) (bytes : List Nat) (n : Nat)
    (h1 : 1 ≤ n) (h : n ≤ 8 * bytes.length) (hrun : T.removeRanOff bytes n = some T') :
    T'.root_.addr = removePath (bitsFrom bytes 0 n) T.root_.addr := by
  obtain ⟨root, hroot, ⟨-, hnone⟩ | ⟨-, hsome⟩⟩ := removeParsed_cases T bytes n h1 h
  · rw [hnone] at hrun; simp at hrun
  · rw [hsome] at hrun
    simp only [Option.some.injEq] at hrun
    rw [← hrun]; exact hroot

theorem removeRanOff_zero (T : PrefixSet) (bytes : List Nat) :
    T.removeRanOff bytes ((0 : Nat) : Int) = none := rfl

theorem covers_of_removePath (fam : AddrFamily) (T T' : PrefixSet) (bytes : List Nat)
    (n : Nat) (hn : n ≤ bitWidth fam)
    (hroot : T'.root_.addr = removePath (bitsFrom bytes 0 n) T.root_.addr) (addr : List Nat) :
    T'.covers fam addr = true ↔
      (T.covers fam addr = true ∧ ¬ ∀ j, j < n → bitOf addr j = bitOf bytes j) := by
  have hcov := coveredPath_removePath (bitsFrom bytes 0 n) (bitsFrom addr 0 (bitWidth fam))
    T.root_.addr (by simpa using hn)
  have hpre := isPrefixOf_bitsFrom bytes addr n 0 (bitWidth fam) hn
  simp only [Nat.zero_add] at hpre
  rw [← hpre]
  simp only [PrefixSet.covers, hroot, hcov, Bool.and_eq_true, Bool.not_eq_true',
    Bool.not_eq_true]

theorem covers_after_remove (fam : AddrFamily) (T : PrefixSet) (bytes : List Nat) (n : Nat)
    (hlen : bytes.length = kByteLen fam) (h1 : 1 ≤ n) (hn : n ≤ bitWidth fam) :
    ∃ T' : PrefixSet,
      ((T.removeParsed bytes n = .ok (T', true) ∧ T.removeRanOff bytes n = none) ∨
        (T.removeParsed bytes n = .error .missingReturn ∧ T.removeRanOff bytes n = some T')) ∧
      ∀ addr : List Nat,
        (T'.covers fam addr = true ↔
          (T.covers fam addr = true ∧ ¬ ∀ j, j < n → bitOf addr j = bitOf bytes j)) := by
  obtain ⟨root, hroot, hcases⟩ := removeParsed_cases T bytes n h1 (by rw [hlen]; exact hn)
  exact ⟨{ root_ := root }, hcases,
    fun addr => covers_of_removePath fam T { root_ := root } bytes n hn hroot addr⟩

/-- C2 (the code departs from the claim): on the set `[0.0.0.0/0]`, `remove` of
`0.0.0.0/1` splits the root and deletes its child 0, so the set in memory is
`[128.0.0.0/1]`, and then runs off the end of the function, which has no `return`
statement at line 116: the call does not complete, so there is no set after it. -/
theorem remove_difference_runs_off :
    everything.invariantA = true ∧
    everything.removeParsed [0, 0, 0, 0] 1 = .error .missingReturn ∧
    everything.remove inetPton4 "0.0.0.0/1".toList = .error .missingReturn ∧
    everything.removeRanOff [0, 0, 0, 0] 1 = some upperHalf ∧
    upperHalf.getAll .AF_INET = .ok [([128, 0, 0, 0], 1)] :=
  ⟨rfl, rfl, rfl, rfl, rfl⟩

theorem addPath_pass_true (bits : List Bool) (node : Node)
    (h : (addPath bits node).2 = true) : (addPath bits node).1 = Node.ctor.setTerminal := by
  cases bits with
  | nil => rfl
  | cons bit bits =>
    rcases addPath_cases bit bits node with ⟨-, h2⟩ | ⟨-, -, -, h2⟩ | ⟨-, -, h2⟩
    · rw [h2] at h; simp at h
    · rw [h2]; rfl
    · rw [h2] at h; simp at h

theorem addPath_pass_false (bits : List Bool) (node : Node)
    (h : (addPath bits node).2 = false) : (addPath bits node).1.terminal = node.terminal := by
  cases bits with
  | nil => simp [addPath] at h
  | cons bit bits =>
    rcases addPath_cases bit bits node with ⟨-, h2⟩ | ⟨-, -, -, h2⟩ | ⟨-, -, h2⟩
    · rw [h2]
    · rw [h2] at h; simp at h
    · rw [h2]; simp

theorem canCoalesce_eq (node : Node) :
    node.canCoalesce = (node.children0.isTerminal && node.children1.isTerminal) := by
  obtain ⟨c0, c1, t⟩ := node
  cases c0 <;> cases c1 <;> simp [Node.canCoalesce, NodePtr.isTerminal]

@[simp] theorem isTerminal_addr (node : Node) : node.addr.isTerminal = node.terminal := rfl

theorem terminal_orNew (p : NodePtr) : p.orNew.terminal = p.isTerminal := by
  cases p <;> rfl

theorem noTerminalSiblings_orNew (p : NodePtr) :
    noTerminalSiblings p.orNew.addr = noTerminalSiblings p := by
  cases p <;> rfl

theorem noTerminalSiblings_children (node : Node) (a : Bool)
    (h : noTerminalSiblings node.addr = true) : noTerminalSiblings (node.children a) = true := by
  obtain ⟨c0, c1, t⟩ := node
  simp only [Node.addr, noTerminalSiblings, Bool.and_eq_true] at h
  cases a
  · exact h.2.1
  · exact h.2.2

theorem noTerminalSiblings_setChildren (node : Node) (bit : Bool) (q : NodePtr)
    (hnode : noTerminalSiblings node.addr = true) (hq : noTerminalSiblings q = true)
    (hor : q.isTerminal = (node.children bit).isTerminal ∨
      (node.setChildren bit q).canCoalesce = false) :
    noTerminalSiblings (node.setChildren bit q).addr = true := by
  obtain ⟨c0, c1, t⟩ := node
  rw [canCoalesce_eq] at hor
  simp only [Node.addr, noTerminalSiblings, Bool.and_eq_true, Bool.not_eq_true',
    Bool.and_eq_false_iff] at hnode
  cases bit <;>
    simp only [Node.children, Node.setChildren, Bool.false_eq_true, if_false, if_true,
      Bool.and_eq_false_iff] at hor <;>
    simp only [Node.addr, Node.setChildren, Bool.false_eq_true, if_false, if_true,
      noTerminalSiblings, Bool.and_eq_true, Bool.not_eq_true', Bool.and_eq_false_iff]
  · refine ⟨?_, hq, hnode.2.2⟩
    rcases hor with h2 | h2
    · rw [h2]; exact hnode.1
    · exact h2
  · refine ⟨?_, hnode.2.1, hq⟩
    rcases hor with h2 | h2
    · rw [h2]; exact hnode.1
    · exact h2

theorem noTerminalSiblings_addPath (bits : List Bool) :
    ∀ node : Node, noTerminalSiblings node.addr = true →
      noTerminalSiblings (addPath bits node).1.addr = true := by
  induction bits with
  | nil => intro node _; rfl
  | cons bit bits ih =>
    intro node hnode
    rcases addPath_cases bit bits node with ⟨-, h⟩ | ⟨-, -, -, h⟩ | ⟨-, hor, h⟩ <;> rw [h]
    · exact hnode
    · rfl
    · refine noTerminalSiblings_setChildren node bit _ hnode (ih _ ?_) ?_
      · rw [noTerminalSiblings_orNew]; exact noTerminalSiblings_children node bit hnode
      · rcases hor with h2 | h2
        · left; rw [isTerminal_addr, addPath_pass_false _ _ h2, terminal_orNew]
        · right; exact h2

@[simp] theorem isTerminal_removePath (bits : List Bool) (p : NodePtr) :
    (removePath bits p).isTerminal = false := by
  cases p with
  | NULL => simp [NodePtr.isTerminal]
  | ptr c0 c1 t =>
    cases bits with
    | nil => rfl
    | cons bit bits => cases bit <;> rfl

theorem noTerminalSiblings_removePath (bits : List Bool) :
    ∀ p : NodePtr, noTerminalSiblings p = true →
      noTerminalSiblings (removePath bits p) = true := by
  induction bits with
  | nil => intro p _; cases p <;> rfl
  | cons bit bits ih =>
    intro p hp
    cases p with
    | NULL => rfl
    | ptr c0 c1 t =>
      simp only [noTerminalSiblings, Bool.and_eq_true] at hp
      have hT : noTerminalSiblings Node.ctor.setTerminal.addr = true := rfl
      cases bit <;> cases t <;>
        simp only [removePath, noTerminalSiblings, isTerminal_removePath, Bool.false_eq_true,
          if_false, if_true, Bool.and_false, Bool.false_and, Bool.not_false, Bool.true_and,
          Bool.and_eq_true]
      · exact ⟨ih _ hp.2.1, hp.2.2⟩
      · exact ⟨ih _ hT, rfl, trivial⟩
      · exact ⟨hp.2.1, ih _ hp.2.2⟩
      · exact ⟨⟨rfl, trivial⟩, ih _ hT⟩

theorem aggregated_empty : PrefixSet.empty.aggregated = true := rfl

theorem terminalsChildless_orNew (p : NodePtr) :
    terminalsChildless p.orNew.addr = terminalsChildless p := by
  cases p <;> rfl

theorem terminalsChildless_children (node : Node) (a : Bool)
    (h : terminalsChildless node.addr = true) : terminalsChildless (node.children a) = true := by
  obtain ⟨c0, c1, t⟩ := node
  simp only [Node.addr, terminalsChildless, Bool.and_eq_true] at h
  cases a
  · exact h.2.1
  · exact h.2.2

theorem terminalsChildless_setChildren (node : Node) (bit : Bool) (q : NodePtr)
    (ht : node.terminal = false) (hnode : terminalsChildless node.addr = true)
    (hq : terminalsChildless q = true) :
    terminalsChildless (node.setChildren bit q).addr = true := by
  obtain ⟨c0, c1, t⟩ := node
  simp only at ht
  subst ht
  simp only [Node.addr, terminalsChildless, Bool.and_eq_true] at hnode
  cases bit <;>
    simp only [Node.addr, Node.setChildren, Bool.false_eq_true, if_false, if_true,
      terminalsChildless, Bool.not_false, Bool.true_or, Bool.true_and, Bool.and_eq_true]
  · exact ⟨hq, hnode.2.2⟩
  · exact ⟨hnode.2.1, hq⟩

theorem terminalsChildless_addPath (bits : List Bool) :
    ∀ node : Node, terminalsChildless node.addr = true →
      terminalsChildless (addPath bits node).1.addr = true := by
  induction bits with
  | nil => intro node _; rfl
  | cons bit bits ih =>
    intro node hnode
    rcases addPath_cases bit bits node with ⟨-, h⟩ | ⟨-, -, -, h⟩ | ⟨ht, -, h⟩ <;> rw [h]
    · exact hnode
    · rfl
    · refine terminalsChildless_setChildren node bit _ ht hnode (ih _ ?_)
      rw [terminalsChildless_orNew]; exact terminalsChildless_children node bit hnode

theorem terminalsChildless_removePath (bits : List Bool) :
    ∀ p : NodePtr, terminalsChildless p = true →
      terminalsChildless (removePath bits p) = true := by
  induction bits with
  | nil => intro p _; cases p <;> rfl
  | cons bit bits ih =>
    intro p hp
    cases p with
    | NULL => rfl
    | ptr c0 c1 t =>
      simp only [terminalsChildless, Bool.and_eq_true] at hp
      have hT : terminalsChildless Node.ctor.setTerminal.addr = true := rfl
      cases bit <;> cases t <;>
        simp only [removePath, terminalsChildless, Bool.false_eq_true,
          if_false, if_true, Bool.not_false, Bool.true_or, Bool.true_and,
          Bool.and_eq_true]
      · exact ⟨ih _ hp.2.1, hp.2.2⟩
      · exact ⟨ih _ hT, rfl, trivial⟩
      · exact ⟨hp.2.1, ih _ hp.2.2⟩
      · exact ⟨⟨rfl, trivial⟩, ih _ hT⟩

theorem clear_root (T : PrefixSet) :
    T.clear = { root_ := { children0 := .NULL, children1 := .NULL,
                           terminal := T.root_.terminal } } := rfl

theorem invariantA_addParsed (T T' : PrefixSet) (bytes : List Nat) (n : Nat) (r : Bool)
    (hn : n ≤ 8 * bytes.length) (hT : T.invariantA = true)
    (hrun : T.addParsed bytes n = .ok (T', r)) : T'.invariantA = true := by
  rw [addParsed_eq T bytes n hn] at hrun
  simp only [Except.ok.injEq, Prod.mk.injEq] at hrun
  rw [← hrun.1]
  exact terminalsChildless_addPath _ _ hT

theorem invariantA_removeParsed (T T' : PrefixSet) (bytes : List Nat) (n : Nat)
    (r : Bool) (h1 : 1 ≤ n) (hn : n ≤ 8 * bytes.length) (hT : T.invariantA = true)
    (hrun : T.removeParsed bytes n = .ok (T', r)) : T'.invariantA = true := by
  have hroot := root_of_removeParsed T T' bytes n r h1 hn hrun
  simp only [PrefixSet.invariantA, hroot]
  exact terminalsChildless_removePath _ _ hT

theorem invariantA_removeRanOff (T T' : PrefixSet) (bytes : List Nat) (n : Nat)
    (h1 : 1 ≤ n) (hn : n ≤ 8 * bytes.length) (hT : T.invariantA = true)
    (hrun : T.removeRanOff bytes n = some T') : T'.invariantA = true := by
  have hroot := root_of_removeRanOff T T' bytes n h1 hn hrun
  simp only [PrefixSet.invariantA, hroot]
  exact terminalsChildless_removePath _ _ hT

theorem invariantA_of_reachableWithClear (fam : AddrFamily) (T : PrefixSet)
    (h : ReachableWithClear fam T) : T.invariantA = true := by
  induction h with
  | empty => rfl
  | add T T' bytes n r _ hlen hn hrun ih =>
    exact invariantA_addParsed T T' bytes n r (by rw [hlen]; exact hn) ih hrun
  | remove T T' bytes n r _ hlen h1 hn hrun ih =>
    exact invariantA_removeParsed T T' bytes n r h1 (by rw [hlen]; exact hn) ih hrun
  | removeRanOff T T' bytes n _ hlen h1 hn hrun ih =>
    exact invariantA_removeRanOff T T' bytes n h1 (by rw [hlen]; exact hn) ih hrun
  | clear T _ ih =>
    rw [clear_root]
    cases hterm : T.root_.terminal <;> rfl

theorem getAllRecur_ne_assertTerminalChildless (p : NodePtr) :
    ∀ (isRoot : Bool) (bytes : List Nat) (prefixLen : Nat) (out : List (List Nat × Nat)),
      terminalsChildless p = true →
      getAllRecur isRoot p bytes prefixLen out ≠ .error .assertTerminalChildless := by
  induction p with
  | NULL => intro isRoot bytes prefixLen out _; simp [getAllRecur]
  | ptr c0 c1 t ih0 ih1 =>
    intro isRoot bytes prefixLen out hp
    simp only [terminalsChildless, Bool.and_eq_true, Bool.or_eq_true, Bool.not_eq_true',
      decide_eq_true_eq] at hp
    obtain ⟨hnode, h0, h1⟩ := hp
    unfold getAllRecur
    cases t with
    | true =>
      have := hnode.resolve_left (by simp)
      simp [this]
    | false =>
      simp only [Bool.false_eq_true, if_false]
      split
      · simp
      · split
        · rename_i e he
          intro hcontra
          simp only [Except.error.injEq] at hcontra
          subst hcontra
          exact ih0 _ _ _ _ h0 he
        · split
          · simp
          · split
            · rename_i e he
              intro hcontra
              simp only [Except.error.injEq] at hcontra
              subst hcontra
              exact ih1 _ _ _ _ h1 he
            · split <;> simp

/-- C7: invariant A holds in every reachable set.  In a set reachable from the empty set
by calls of `add` (length `0..W`), `remove` (length `1..W`) and `clear`, every terminal node
has two `NULL` slots, and `getAll` never fails the assertion of line 136. -/
theorem invariantA_reachable (fam : AddrFamily) (T : PrefixSet)
    (h : ReachableWithClear fam T) :
    T.invariantA = true ∧ T.getAll fam ≠ .error .assertTerminalChildless := by
  have hA := invariantA_of_reachableWithClear fam T h
  refine ⟨hA, ?_⟩
  have := getAllRecur_ne_assertTerminalChildless T.root_.addr true
    (List.replicate (kByteLen fam) 0) 0 [] hA
  unfold PrefixSet.getAll
  split
  · rename_i e he
    intro hcontra
    simp only [Except.error.injEq] at hcontra
    subst hcontra
    exact this he
  · simp

theorem addPath_terminalNode_fst (bits : List Bool) :
    (addPath bits Node.ctor.setTerminal).1 = Node.ctor.setTerminal := by
  cases bits <;> rfl

@[simp] theorem setChildren_setChildren (node : Node) (bit : Bool) (p q : NodePtr) :
    (node.setChildren bit p).setChildren bit q = node.setChildren bit q := by
  cases bit <;> rfl

theorem addPath_idem_of_pass_false (bits : List Bool) :
    ∀ node : Node, (addPath bits node).2 = false →
      addPath bits (addPath bits node).1 = ((addPath bits node).1, false) := by
  induction bits with
  | nil => intro node h; simp [addPath] at h
  | cons bit bits ih =>
    intro node hpass
    rcases addPath_cases bit bits node with ⟨ht, h⟩ | ⟨-, -, -, h⟩ | ⟨ht, hor, h⟩
    · rw [h]; exact h
    · rw [h] at hpass; simp at hpass
    · rw [h]
      simp only
      -- the second walk meets the child left by the first one
      have hchild : ((node.setChildren bit
          (addPath bits (node.children bit).orNew).1.addr).children bit).orNew
            = (addPath bits (node.children bit).orNew).1 := by simp
      have hfst : (addPath bits (addPath bits (node.children bit).orNew).1).1
          = (addPath bits (node.children bit).orNew).1 := by
        cases hp : (addPath bits (node.children bit).orNew).2 with
        | false => rw [ih _ hp]
        | true => rw [addPath_pass_true _ _ hp, addPath_terminalNode_fst]
      have hor2 : (addPath bits (addPath bits (node.children bit).orNew).1).2 = false ∨
          (node.setChildren bit (addPath bits (node.children bit).orNew).1.addr).canCoalesce
            = false := by
        rcases hor with hp | hc
        · left; rw [ih _ hp]
        · right; exact hc
      rcases addPath_cases bit bits
          (node.setChildren bit (addPath bits (node.children bit).orNew).1.addr)
        with ⟨ht2, -⟩ | ⟨-, hp2, hc2, -⟩ | ⟨-, -, h2⟩
      · simp [ht] at ht2
      · rw [hchild, hfst, setChildren_setChildren] at hc2
        rw [hchild] at hp2
        rcases hor2 with h3 | h3
        · rw [h3] at hp2; simp at hp2
        · rw [h3] at hc2; simp at hc2
      · rw [h2, hchild, hfst, setChildren_setChildren]

theorem addPath_fst_idem (bits : List Bool) (node : Node) :
    (addPath bits (addPath bits node).1).1 = (addPath bits node).1 := by
  cases hp : (addPath bits node).2 with
  | false => rw [addPath_idem_of_pass_false _ _ hp]
  | true => rw [addPath_pass_true _ _ hp, addPath_terminalNode_fst]

/-- C9: `add` is idempotent.  For every set `T` and every prefix `bytes/n` of the family
with `0 ≤ n ≤ W`, `add` completes with a set `T1`, and a second `add` of the same prefix
on `T1` completes and leaves `T1`. -/
theorem add_idempotent (fam : AddrFamily) (T : PrefixSet) (bytes : List Nat) (n : Nat)
    (hlen : bytes.length = kByteLen fam) (hn : n ≤ bitWidth fam) :
    ∃ T1 : PrefixSet, T.addParsed bytes n = .ok (T1, true) ∧
      T1.addParsed bytes n = .ok (T1, true) := by
  have hn8 : n ≤ 8 * bytes.length := by rw [hlen]; exact hn
  refine ⟨_, addParsed_eq T bytes n hn8, ?_⟩
  rw [addParsed_eq _ bytes n hn8]
  simp only [addPath_fst_idem]

theorem orNew_addr_of_covered (bits : List Bool) (p : NodePtr)
    (h : coveredPath bits p = true) : p.orNew.addr = p := by
  cases p with
  | NULL => simp [coveredPath] at h
  | ptr a b t => rfl

theorem setTerminal_of_terminal (node : Node) (ht : node.terminal = true)
    (hA : terminalsChildless node.addr = true) : node.setTerminal = node := by
  obtain ⟨c0, c1, t⟩ := node
  simp only at ht
  subst ht
  simp only [Node.addr, terminalsChildless, Bool.and_eq_true, Bool.or_eq_true,
    Bool.not_eq_true', decide_eq_true_eq] at hA
  obtain ⟨h0, h1⟩ := hA.1.resolve_left (by simp)
  subst h0 h1
  rfl

theorem canCoalesce_false_of_noTerminalSiblings (node : Node)
    (h : noTerminalSiblings node.addr = true) : node.canCoalesce = false := by
  obtain ⟨c0, c1, t⟩ := node
  simp only [Node.addr, noTerminalSiblings, Bool.and_eq_true, Bool.not_eq_true'] at h
  rw [canCoalesce_eq]
  exact h.1

theorem addPath_absorb (bits : List Bool) :
    ∀ node : Node, terminalsChildless node.addr = true → noTerminalSiblings node.addr = true →
      coveredPath bits node.addr = true → (addPath bits node).1 = node := by
  induction bits with
  | nil =>
    intro node hA _ hcov
    exact setTerminal_of_terminal node (by simpa [coveredPath, Node.addr] using hcov) hA
  | cons bit bits ih =>
    intro node hA hC hcov
    rcases addPath_cases bit bits node with ⟨-, h⟩ | ⟨ht, -, hc, h⟩ | ⟨ht, -, h⟩
    · rw [h]
    · exfalso
      rw [coveredPath_cons_addr, ht, Bool.false_or] at hcov
      have hrec := ih (node.children bit).orNew
        (by rw [terminalsChildless_orNew]; exact terminalsChildless_children node bit hA)
        (by rw [noTerminalSiblings_orNew]; exact noTerminalSiblings_children node bit hC)
        (by rw [orNew_addr_of_covered bits _ hcov]; exact hcov)
      rw [hrec, orNew_addr_of_covered bits _ hcov, setChildren_children] at hc
      rw [canCoalesce_false_of_noTerminalSiblings node hC] at hc
      simp at hc
    · rw [coveredPath_cons_addr, ht, Bool.false_or] at hcov
      have hrec := ih (node.children bit).orNew
        (by rw [terminalsChildless_orNew]; exact terminalsChildless_children node bit hA)
        (by rw [noTerminalSiblings_orNew]; exact noTerminalSiblings_children node bit hC)
        (by rw [orNew_addr_of_covered bits _ hcov]; exact hcov)
      rw [h, hrec, orNew_addr_of_covered bits _ hcov, setChildren_children]

theorem aggregated_addParsed (T T' : PrefixSet) (bytes : List Nat) (n : Nat) (r : Bool)
    (hn : n ≤ 8 * bytes.length) (hT : T.aggregated = true)
    (hrun : T.addParsed bytes n = .ok (T', r)) : T'.aggregated = true := by
  rw [addParsed_eq T bytes n hn] at hrun
  simp only [Except.ok.injEq, Prod.mk.injEq] at hrun
  rw [← hrun.1]
  exact noTerminalSiblings_addPath _ _ hT

theorem removeParsed_zero (T : PrefixSet) (bytes : List Nat) :
    T.removeParsed bytes ((0 : Nat) : Int) = .error .nullParent := rfl

theorem aggregated_removeParsed (T T' : PrefixSet) (bytes : List Nat) (n : Nat)
    (r : Bool) (h1 : 1 ≤ n) (hn : n ≤ 8 * bytes.length) (hT : T.aggregated = true)
    (hrun : T.removeParsed bytes n = .ok (T', r)) : T'.aggregated = true := by
  have hroot := root_of_removeParsed T T' bytes n r h1 hn hrun
  simp only [PrefixSet.aggregated, hroot]
  exact noTerminalSiblings_removePath _ _ hT

theorem aggregated_removeRanOff (T T' : PrefixSet) (bytes : List Nat) (n : Nat)
    (h1 : 1 ≤ n) (hn : n ≤ 8 * bytes.length) (hT : T.aggregated = true)
    (hrun : T.removeRanOff bytes n = some T') : T'.aggregated = true := by
  have hroot := root_of_removeRanOff T T' bytes n h1 hn hrun
  simp only [PrefixSet.aggregated, hroot]
  exact noTerminalSiblings_removePath _ _ hT

theorem invariants_of_reachable (fam : AddrFamily) (T : PrefixSet) (h : Reachable fam T) :
    T.invariantA = true ∧ T.aggregated = true := by
  induction h with
  | empty => exact ⟨rfl, rfl⟩
  | add T T' bytes n r _ hlen hn hrun ih =>
    have hn8 : n ≤ 8 * bytes.length := by rw [hlen]; exact hn
    exact ⟨invariantA_addParsed T T' bytes n r hn8 ih.1 hrun,
      aggregated_addParsed T T' bytes n r hn8 ih.2 hrun⟩
  | remove T T' bytes n r _ hlen hn hrun ih =>
    have hn8 : n ≤ 8 * bytes.length := by rw [hlen]; exact hn
    cases n with
    | zero => rw [removeParsed_zero] at hrun; simp at hrun
    | succ n =>
      exact ⟨invariantA_removeParsed T T' bytes (n + 1) r (by omega) hn8 ih.1 hrun,
        aggregated_removeParsed T T' bytes (n + 1) r (by omega) hn8 ih.2 hrun⟩
  | removeRanOff T T' bytes n _ hlen hn hrun ih =>
    have hn8 : n ≤ 8 * bytes.length := by rw [hlen]; exact hn
    cases n with
    | zero => rw [removeRanOff_zero] at hrun; simp at hrun
    | succ n =>
      exact ⟨invariantA_removeRanOff T T' bytes (n + 1) (by omega) hn8 ih.1 hrun,
        aggregated_removeRanOff T T' bytes (n + 1) (by omega) hn8 ih.2 hrun⟩

/-- C10: redundant inserts are absorbed.  For every set `T` reachable from the empty set
by `add` and `remove`, and every prefix `bytes/n` of the family with `n ≤ W` such that a
terminal node of `T` lies on the bit path of the prefix at a depth of at most `n`, `add`
returns `true` and leaves `T` unchanged. -/
theorem add_absorbed (fam : AddrFamily) (T : PrefixSet) (bytes : List Nat) (n : Nat)
    (hT : Reachable fam T) (hlen : bytes.length = kByteLen fam) (hn : n ≤ bitWidth fam)
    (hcov : T.coversPrefix bytes n = true) :
    T.addParsed bytes n = .ok (T, true) := by
  obtain ⟨hA, hC⟩ := invariants_of_reachable fam T hT
  rw [addParsed_eq T bytes n (by rw [hlen]; exact hn), addPath_absorb _ _ hA hC hcov]

/-! ## The traversal -/

set_option maxRecDepth 100000 in
theorem byteBitFacts : ∀ j, j < 8 → ∀ x, x < 256 → x % 2 ^ (8 - j) = 0 →
    ((x ||| (1 <<< (7 - j))) % 256 = x + 2 ^ (7 - j) ∧
     (x + 2 ^ (7 - j)) &&& (255 ^^^ (1 <<< (7 - j))) = x ∧
     (x + 2 ^ (7 - j)) % 2 ^ (7 - j) = 0 ∧
     x + 2 ^ (7 - j) < 256) := by
  decide

theorem foldl_value (l : List Nat) :
    ∀ acc : Nat, l.foldl (fun acc c => acc * 256 + c) acc
      = acc * 256 ^ l.length + l.foldl (fun acc c => acc * 256 + c) 0 := by
  induction l with
  | nil => intro acc; simp
  | cons c l ih =>
    intro acc
    simp only [List.foldl_cons, List.length_cons]
    rw [ih (acc * 256 + c), ih (0 * 256 + c)]
    ring

theorem addrValue_cons (c : Nat) (l : List Nat) :
    addrValue (c :: l) = c * 256 ^ l.length + addrValue l := by
  simp only [addrValue, List.foldl_cons]
  rw [foldl_value l (0 * 256 + c)]
  ring

theorem addrValue_set_add (bytes : List Nat) :
    ∀ (k c b : Nat), bytes.get? k = some c →
      addrValue (bytes.set k (c + b)) = addrValue bytes + b * 256 ^ (bytes.length - 1 - k) := by
  induction bytes with
  | nil => intro k c b h; simp at h
  | cons x l ih =>
    intro k c b h
    cases k with
    | zero =>
      simp only [List.get?_cons_zero, Option.some.injEq] at h
      subst h
      simp only [List.set_cons_zero, addrValue_cons, List.length_cons]
      simp only [Nat.add_sub_cancel, Nat.sub_zero]
      ring
    | succ k =>
      simp only [List.get?_cons_succ] at h
      have hk : k < l.length := by
        by_contra hcon
        rw [List.get?_eq_none.mpr (by omega)] at h
        simp at h
      simp only [List.set_cons_succ, addrValue_cons, List.length_cons, List.length_set,
        ih k c b h]
      rw [show l.length + 1 - 1 - (k + 1) = l.length - 1 - k by omega]
      ring

theorem weight_eq (L d : Nat) (h : d < 8 * L) :
    2 ^ (7 - d % 8) * 256 ^ (L - 1 - d / 8) = 2 ^ (8 * L - d - 1) := by
  rw [show (256 : Nat) = 2 ^ 8 by norm_num, ← pow_mul, ← pow_add]
  congr 1
  omega

theorem bufferClearFrom_succ (bytes : List Nat) (d : Nat) (h : BufferClearFrom bytes d) :
    BufferClearFrom bytes (d + 1) := by
  intro k c hk
  obtain ⟨h1, h2, h3⟩ := h k c hk
  refine ⟨h1, fun hd => h2 (by omega), fun hkd => ?_⟩
  by_cases hsame : (d + 1) / 8 = d / 8
  · have h3' := h3 (by omega)
    have hexp : 8 - d % 8 = (8 - (d + 1) % 8) + 1 := by omega
    rw [hexp, pow_succ] at h3'
    have hdvd : 2 ^ (8 - (d + 1) % 8) ∣ c :=
      (dvd_mul_right _ 2).trans (Nat.dvd_of_mod_eq_zero h3')
    exact Nat.mod_eq_zero_of_dvd hdvd
  · rw [h2 (by omega)]
    simp

theorem bufferClearFrom_set (bytes : List Nat) (d c : Nat) (h : BufferClearFrom bytes d)
    (hc : bytes.get? (d / 8) = some c) :
    BufferClearFrom (bytes.set (d / 8) (c + 2 ^ (7 - d % 8))) (d + 1) := by
  obtain ⟨hc1, -, hc3⟩ := h (d / 8) c hc
  obtain ⟨-, -, hmod, hlt⟩ := byteBitFacts (d % 8) (Nat.mod_lt _ (by norm_num)) c hc1 (hc3 rfl)
  intro k x hk
  by_cases hkd : k = d / 8
  · subst hkd
    have hx : x = c + 2 ^ (7 - d % 8) := by
      have hlen : d / 8 < bytes.length := by
        by_contra hcon
        rw [List.get?_eq_none.mpr (by omega)] at hc
        simp at hc
      simpa [List.getElem?_set, hlen] using hk.symm
    subst hx
    refine ⟨hlt, fun hd => by omega, fun hsame => ?_⟩
    rw [show 8 - (d + 1) % 8 = 7 - d % 8 by omega]
    exact hmod
  · have hk' : bytes.get? k = some x := by
      simpa [List.getElem?_set, Ne.symm hkd] using hk
    obtain ⟨h1, h2, -⟩ := h k x hk'
    refine ⟨h1, fun hd => h2 (by omega), fun hkd2 => ?_⟩
    rw [h2 (by omega)]
    simp

theorem bufferClearFrom_replicate (L : Nat) : BufferClearFrom (List.replicate L 0) 0 := by
  intro k c hk
  have hc : c = 0 := by
    have hmem : c ∈ List.replicate L 0 := List.get?_mem hk
    exact (List.mem_replicate.mp hmem).2
  subst hc
  simp

theorem getAllRecur_node_ok (isRoot : Bool) (c0 c1 : NodePtr) (bytes : List Nat) (d : Nat)
    (out : List (List Nat × Nat)) (res : List Nat × List (List Nat × Nat))
    (h : getAllRecur isRoot (.ptr c0 c1 false) bytes d out = .ok res) :
    ∃ bytes1 out1 c bytes2 out2 c2,
      getAllRecur false c0 bytes (d + 1) out = .ok (bytes1, out1) ∧
      bytes1.get? (d / 8) = some c ∧
      getAllRecur false c1 (bytes1.set (d / 8) ((c ||| (1 <<< (7 - d % 8))) % 256)) (d + 1) out1
        = .ok (bytes2, out2) ∧
      bytes2.get? (d / 8) = some c2 ∧
      res = (bytes2.set (d / 8) (c2 &&& (255 ^^^ (1 <<< (7 - d % 8)))), out2) := by
  unfold getAllRecur at h
  simp only [Bool.false_eq_true, if_false] at h
  split at h
  · simp at h
  · split at h
    · simp at h
    · rename_i bytes1 out1 h0
      split at h
      · simp at h
      · rename_i c hc
        split at h
        · simp at h
        · rename_i bytes2 out2 h1
          split at h
          · simp at h
          · rename_i c2 hc2
            simp only [Except.ok.injEq] at h
            exact ⟨bytes1, out1, c, bytes2, out2, c2, h0, hc, h1, hc2, h.symm⟩

theorem getAllRecur_terminal (isRoot : Bool) (c0 c1 : NodePtr) (bytes : List Nat) (d : Nat)
    (out : List (List Nat × Nat)) (res : List Nat × List (List Nat × Nat))
    (h : getAllRecur isRoot (.ptr c0 c1 true) bytes d out = .ok res) :
    res = (bytes, out ++ [(bytes, d)]) := by
  unfold getAllRecur at h
  simp only [if_true] at h
  split at h
  · simp only [Except.ok.injEq] at h; exact h.symm
  · simp at h

theorem getAllRecur_length (p : NodePtr) :
    ∀ (isRoot : Bool) (bytes : List Nat) (d : Nat) (out : List (List Nat × Nat))
      (res : List Nat × List (List Nat × Nat)),
      getAllRecur isRoot p bytes d out = .ok res → res.1.length = bytes.length := by
  induction p with
  | NULL =>
    intro isRoot bytes d out res h
    simp only [getAllRecur, Except.ok.injEq] at h
    rw [← h]
  | ptr c0 c1 t ih0 ih1 =>
    intro isRoot bytes d out res h
    cases t with
    | true => rw [getAllRecur_terminal _ _ _ _ _ _ _ h]
    | false =>
      obtain ⟨bytes1, out1, c, bytes2, out2, c2, h0, -, h1, -, rfl⟩ :=
        getAllRecur_node_ok _ _ _ _ _ _ _ h
      have l0 := ih0 _ _ _ _ _ h0
      have l1 := ih1 _ _ _ _ _ h1
      simp only [List.length_set] at l0 l1 ⊢
      omega

theorem get?_lt {bytes : List Nat} {k c : Nat} (h : bytes.get? k = some c) :
    k < bytes.length := by
  by_contra hcon
  rw [List.get?_eq_none.mpr (by omega)] at h
  simp at h

theorem set_of_get? (l : List Nat) :
    ∀ (k c : Nat), l.get? k = some c → l.set k c = l := by
  induction l with
  | nil => intro k c h; simp at h
  | cons x l ih =>
    intro k c h
    cases k with
    | zero =>
      simp only [List.get?_cons_zero, Option.some.injEq] at h
      subst h
      rfl
    | succ k =>
      simp only [List.get?_cons_succ] at h
      simp only [List.set_cons_succ, ih k c h]

theorem getAllRecur_spec (p : NodePtr) :
    ∀ (isRoot : Bool) (bytes : List Nat) (d : Nat) (out : List (List Nat × Nat))
      (res : List Nat × List (List Nat × Nat)),
      getAllRecur isRoot p bytes d out = .ok res →
      BufferClearFrom bytes d → d ≤ 8 * bytes.length →
      res.1 = bytes ∧ ∃ new : List (List Nat × Nat), res.2 = out ++ new ∧
        (∀ e ∈ new, e.1.length = bytes.length ∧ addrValue bytes ≤ addrValue e.1 ∧
          addrValue e.1 < addrValue bytes + 2 ^ (8 * bytes.length - d)) ∧
        AscendingAddresses new := by
  induction p with
  | NULL =>
    intro isRoot bytes d out res h _ _
    simp only [getAllRecur, Except.ok.injEq] at h
    subst h
    exact ⟨rfl, [], by simp, by simp, List.Pairwise.nil⟩
  | ptr c0 c1 t ih0 ih1 =>
    intro isRoot bytes d out res h hbuf hd
    cases t with
    | true =>
      rw [getAllRecur_terminal _ _ _ _ _ _ _ h]
      refine ⟨rfl, [(bytes, d)], rfl, ?_, List.pairwise_singleton _ _⟩
      intro e he
      simp only [List.mem_singleton] at he
      subst he
      exact ⟨rfl, le_refl _, Nat.lt_add_of_pos_right (by positivity)⟩
    | false =>
      obtain ⟨bytes1, out1, c, bytes2, out2, c2, h0, hc, h1, hc2, rfl⟩ :=
        getAllRecur_node_ok _ _ _ _ _ _ _ h
      have hlen1 := getAllRecur_length _ _ _ _ _ _ h0
      have hdlt : d < 8 * bytes.length := by
        have := get?_lt hc
        simp only at hlen1
        omega
      obtain ⟨hb1, new0, hout1, hrange0, hasc0⟩ :=
        ih0 _ _ _ _ _ h0 (bufferClearFrom_succ _ _ hbuf) (by omega)
      simp only at hb1 hout1
      subst hb1 hout1
      obtain ⟨hc1, -, hc3⟩ := hbuf (d / 8) c hc
      obtain ⟨hor, hand, -, -⟩ :=
        byteBitFacts (d % 8) (Nat.mod_lt _ (by norm_num)) c hc1 (hc3 rfl)
      rw [hor] at h1
      obtain ⟨hb2, new1, hout2, hrange1, hasc1⟩ :=
        ih1 _ _ _ _ _ h1 (bufferClearFrom_set _ _ _ hbuf hc) (by simp; omega)
      simp only at hb2 hout2
      subst hb2 hout2
      have hval := addrValue_set_add bytes1 (d / 8) c (2 ^ (7 - d % 8)) hc
      rw [weight_eq bytes1.length d hdlt] at hval
      have hc2' : c2 = c + 2 ^ (7 - d % 8) := by
        have hk := get?_lt hc
        simpa [List.getElem?_set, hk] using hc2.symm
      subst hc2'
      have hpow : 2 ^ (8 * bytes1.length - d) = 2 * 2 ^ (8 * bytes1.length - d - 1) := by
        rw [← pow_succ']
        congr 1
        omega
      have hpow1 : 8 * bytes1.length - (d + 1) = 8 * bytes1.length - d - 1 := by omega
      simp only [List.length_set, hval, hpow1] at hrange0 hrange1
      refine ⟨?_, new0 ++ new1, by simp, ?_, ?_⟩
      · simp only [hand, List.set_set]
        exact set_of_get? _ _ _ hc
      · intro e he
        rw [hpow]
        rcases List.mem_append.mp he with h' | h'
        · have := hrange0 e h'
          exact ⟨this.1, by omega, by omega⟩
        · have := hrange1 e h'
          exact ⟨this.1, by omega, by omega⟩
      · refine List.pairwise_append.mpr ⟨hasc0, hasc1, fun a ha b hb => ?_⟩
        have := hrange0 a ha
        have := hrange1 b hb
        omega

theorem get?_of_lt (bytes : List Nat) (k : Nat) (h : k < bytes.length) :
    ∃ c, bytes.get? k = some c :=
  ⟨bytes[k], by simp [List.getElem?_eq_getElem h]⟩

theorem getAllRecur_ok (p : NodePtr) :
    ∀ (isRoot : Bool) (bytes : List Nat) (d : Nat) (out : List (List Nat × Nat)),
      terminalsChildless p = true →
      (∀ c0 c1 t, p = .ptr c0 c1 t → noDangling c0 = true ∧ noDangling c1 = true ∧
        (isRoot = true ∨ t = true ∨ c0 ≠ .NULL ∨ c1 ≠ .NULL)) →
      nonTerminalsAbove (8 * bytes.length - d) p = true →
      d ≤ 8 * bytes.length → BufferClearFrom bytes d →
      ∃ res, getAllRecur isRoot p bytes d out = .ok res := by
  induction p with
  | NULL => intro isRoot bytes d out _ _ _ _ _; exact ⟨_, rfl⟩
  | ptr c0 c1 t ih0 ih1 =>
    intro isRoot bytes d out hA hB hW hd hbuf
    simp only [terminalsChildless, Bool.and_eq_true, Bool.or_eq_true, Bool.not_eq_true',
      decide_eq_true_eq] at hA
    obtain ⟨hAnode, hA0, hA1⟩ := hA
    obtain ⟨hB0, hB1, hBnode⟩ := hB c0 c1 t rfl
    cases t with
    | true =>
      have hnull := hAnode.resolve_left (by simp)
      exact ⟨(bytes, out ++ [(bytes, d)]), by simp [getAllRecur, hnull]⟩
    | false =>
      simp only [nonTerminalsAbove, Bool.false_or, Bool.and_eq_true, decide_eq_true_eq] at hW
      obtain ⟨hpos, hW0, hW1⟩ := hW
      have hdlt : d < 8 * bytes.length := by omega
      have hsub : 8 * bytes.length - d - 1 = 8 * bytes.length - (d + 1) := by omega
      rw [hsub] at hW0 hW1
      have hbelow : ∀ q : NodePtr, noDangling q = true →
          ∀ a b t, q = .ptr a b t → noDangling a = true ∧ noDangling b = true ∧
            (false = true ∨ t = true ∨ a ≠ .NULL ∨ b ≠ .NULL) := by
        intro q hq a b t hqe
        subst hqe
        simp only [noDangling, Bool.and_eq_true, Bool.or_eq_true, Bool.not_eq_true',
          Bool.and_eq_false_iff, decide_eq_false_iff_not] at hq
        refine ⟨hq.2.1, hq.2.2, Or.inr ?_⟩
        rcases hq.1 with h | h | h
        · exact Or.inl h
        · exact Or.inr (Or.inl h)
        · exact Or.inr (Or.inr h)
      obtain ⟨res0, h0⟩ := ih0 false bytes (d + 1) out hA0 (hbelow c0 hB0) hW0 (by omega)
        (bufferClearFrom_succ _ _ hbuf)
      obtain ⟨hb0, -⟩ := getAllRecur_spec c0 _ _ _ _ _ h0 (bufferClearFrom_succ _ _ hbuf)
        (by omega)
      obtain ⟨c, hc⟩ := get?_of_lt bytes (d / 8) (by omega)
      obtain ⟨hc1, -, hc3⟩ := hbuf (d / 8) c hc
      obtain ⟨hor, -, -, -⟩ :=
        byteBitFacts (d % 8) (Nat.mod_lt _ (by norm_num)) c hc1 (hc3 rfl)
      have hbuf1 := bufferClearFrom_set _ _ _ hbuf hc
      obtain ⟨res1, h1⟩ := ih1 false (bytes.set (d / 8) (c + 2 ^ (7 - d % 8))) (d + 1) res0.2
        hA1 (hbelow c1 hB1) (by simpa using hW1) (by simp; omega) hbuf1
      obtain ⟨hb1, -⟩ := getAllRecur_spec c1 _ _ _ _ _ h1 hbuf1 (by simp; omega)
      obtain ⟨c2, hc2⟩ := get?_of_lt res1.1 (d / 8) (by rw [hb1]; simp; omega)
      have hassert : isRoot = true ∨ c0 ≠ .NULL ∨ c1 ≠ .NULL := by
        rcases hBnode with h | h | h
        · exact Or.inl h
        · simp at h
        · exact Or.inr h
      obtain ⟨bytes1, out1⟩ := res0
      obtain ⟨bytes2, out2⟩ := res1
      simp only at hb0 hc2 h1
      subst hb0
      refine ⟨(bytes2.set (d / 8) (c2 &&& (255 ^^^ (1 <<< (7 - d % 8)))), out2), ?_⟩
      unfold getAllRecur
      simp only [Bool.false_eq_true, if_false, hassert, not_true_eq_false, h0, hc, hor, h1, hc2]

/-- C8: `getAll` returns the prefixes in ascending numeric address order.  For every set
in which terminal nodes have no children, a sequence returned by `getAll` is strictly
increasing in the addresses read as big-endian unsigned integers, every address having
the byte length of the family; and `getAll` does return a sequence when, in addition, no
node other than the root is left without children and every non-terminal node is at a
depth below the address width. -/
theorem getAll_ascending (fam : AddrFamily) (T : PrefixSet) (hA : T.invariantA = true) :
    (∀ out, T.getAll fam = .ok out →
      AscendingAddresses out ∧ ∀ e ∈ out, e.1.length = kByteLen fam) ∧
    (T.invariantB = true → T.withinWidth fam = true → ∃ out, T.getAll fam = .ok out) := by
  have hbuf := bufferClearFrom_replicate (kByteLen fam)
  constructor
  · intro out hout
    unfold PrefixSet.getAll at hout
    split at hout
    · simp at hout
    · rename_i bytes' out' hrun
      simp only [Except.ok.injEq] at hout
      subst hout
      obtain ⟨-, new, hnew, hrange, hasc⟩ := getAllRecur_spec _ _ _ _ _ _ hrun hbuf (by omega)
      simp only [List.nil_append] at hnew
      subst hnew
      exact ⟨hasc, fun e he => by simpa using (hrange e he).1⟩
  · intro hB hW
    obtain ⟨res, hres⟩ := getAllRecur_ok T.root_.addr true (List.replicate (kByteLen fam) 0) 0 []
      hA
      (by
        intro c0 c1 t hp
        simp only [Node.addr, NodePtr.ptr.injEq] at hp
        simp only [PrefixSet.invariantB, Bool.and_eq_true] at hB
        obtain ⟨h0, h1, -⟩ := hp
        subst h0 h1
        exact ⟨hB.1, hB.2, Or.inl rfl⟩)
      (by simpa [PrefixSet.withinWidth, bitWidth] using hW) (by omega) hbuf
    exact ⟨res.2, by simp [PrefixSet.getAll, hres]⟩

/-! ## Evaluations -/

theorem add_is_union_witness :
    ([10, 0, 0, 0] : List Nat).length = kByteLen .AF_INET ∧ 24 ≤ bitWidth .AF_INET ∧
    ∃ T' : PrefixSet, PrefixSet.empty.addParsed [10, 0, 0, 0] ((24 : Nat) : Int) = .ok (T', true) ∧
      ∀ addr : List Nat, addr.length = kByteLen .AF_INET →
        (T'.covers .AF_INET addr = true ↔
          (PrefixSet.empty.covers .AF_INET addr = true ∨
            ∀ j, j < 24 → bitOf addr j = bitOf [10, 0, 0, 0] j)) :=
  ⟨by decide, by decide,
    add_is_union .AF_INET PrefixSet.empty [10, 0, 0, 0] 24 (by decide) (by decide)⟩

theorem invariantA_reachable_witness :
    ReachableWithClear .AF_INET everything.clear ∧
    (everything.clear.invariantA = true ∧
      everything.clear.getAll .AF_INET ≠ .error .assertTerminalChildless) :=
  ⟨.clear _ (.add PrefixSet.empty everything [0, 0, 0, 0] 0 true .empty rfl (by decide) rfl),
    invariantA_reachable .AF_INET everything.clear
      (.clear _ (.add PrefixSet.empty everything [0, 0, 0, 0] 0 true .empty rfl (by decide) rfl))⟩

theorem getAll_ascending_witness :
    (twoBranches.invariantA = true ∧ twoBranches.invariantB = true ∧
      twoBranches.withinWidth .AF_INET = true) ∧
    (∀ out, twoBranches.getAll .AF_INET = .ok out →
      AscendingAddresses out ∧ ∀ e ∈ out, e.1.length = kByteLen .AF_INET) ∧
    (∃ out, twoBranches.getAll .AF_INET = .ok out) ∧
    twoBranches.getAll .AF_INET = .ok [([0, 0, 0, 0], 2), ([128, 0, 0, 0], 1)] ∧
    AscendingAddresses [([0, 0, 0, 0], 2), ([128, 0, 0, 0], 1)] ∧
    addrValue [0, 0, 0, 0] = 0 ∧ addrValue [128, 0, 0, 0] = 2147483648 ∧
    (∃ T1 : PrefixSet, PrefixSet.empty.addParsed [0, 0, 0, 0] ((2 : Nat) : Int) = .ok (T1, true) ∧
      T1.addParsed [128, 0, 0, 0] ((1 : Nat) : Int) = .ok (twoBranches, true)) :=
  ⟨⟨by decide, by decide, by decide⟩,
    (getAll_ascending .AF_INET twoBranches (by decide)).1,
    (getAll_ascending .AF_INET twoBranches (by decide)).2 (by decide) (by decide),
    rfl,
    ((getAll_ascending .AF_INET twoBranches (by decide)).1
      [([0, 0, 0, 0], 2), ([128, 0, 0, 0], 1)] rfl).1,
    by decide, by decide,
    ⟨slash2, rfl, rfl⟩⟩

theorem add_idempotent_witness :
    ([10, 0, 0, 0] : List Nat).length = kByteLen .AF_INET ∧ 24 ≤ bitWidth .AF_INET ∧
    ∃ T1 : PrefixSet, PrefixSet.empty.addParsed [10, 0, 0, 0] ((24 : Nat) : Int) = .ok (T1, true) ∧
      T1.addParsed [10, 0, 0, 0] ((24 : Nat) : Int) = .ok (T1, true) :=
  ⟨by decide, by decide,
    add_idempotent .AF_INET PrefixSet.empty [10, 0, 0, 0] 24 (by decide) (by decide)⟩

theorem add_absorbed_witness :
    (Reachable .AF_INET slash24 ∧ ([10, 0, 0, 0] : List Nat).length = kByteLen .AF_INET ∧
      25 ≤ bitWidth .AF_INET ∧ slash24.coversPrefix [10, 0, 0, 0] 25 = true) ∧
    slash24.addParsed [10, 0, 0, 0] ((25 : Nat) : Int) = .ok (slash24, true) ∧
    PrefixSet.empty.addParsed [10, 0, 0, 0] ((24 : Nat) : Int) = .ok (slash24, true) ∧
    slash24.getAll .AF_INET = .ok [([10, 0, 0, 0], 24)] :=
  ⟨⟨.add PrefixSet.empty slash24 [10, 0, 0, 0] 24 true .empty rfl (by decide) rfl,
      by decide, by decide, by decide⟩,
    add_absorbed .AF_INET slash24 [10, 0, 0, 0] 25
      (.add PrefixSet.empty slash24 [10, 0, 0, 0] 24 true .empty rfl (by decide) rfl)
      (by decide) (by decide) (by decide),
    rfl, rfl⟩

theorem copyRecur_fresh (p : NodePtr) :
    ∀ a b t, p = .ptr a b t → copyRecur Node.ctor.addr p = .ok p := by
  induction p with
  | NULL => intro a b t h; simp at h
  | ptr c0 c1 t0 ih0 ih1 =>
    intro a b t _
    cases c0 with
    | NULL =>
      cases c1 with
      | NULL => rfl
      | ptr a1 b1 t1 =>
        have h1 := ih1 a1 b1 t1 rfl
        simp only [copyRecur, Node.ctor, Node.addr] at h1 ⊢
        simp only [h1]
    | ptr a0 b0 s0 =>
      have h0 := ih0 a0 b0 s0 rfl
      cases c1 with
      | NULL =>
        simp only [copyRecur, Node.ctor, Node.addr] at h0 ⊢
        simp only [h0]
      | ptr a1 b1 t1 =>
        have h1 := ih1 a1 b1 t1 rfl
        simp only [copyRecur, Node.ctor, Node.addr] at h0 h1 ⊢
        simp only [h0, h1]

/-- C4 (the code departs from the claim): `clear` sets both slots of the root to `NULL`
and leaves its `terminal` flag as it was.  On the set `[0.0.0.0/0]`, which `add` builds
from the empty set, `clear` changes nothing and `getAll` still returns `0.0.0.0/0`. -/
theorem clear_keeps_terminal_flag :
    (∀ T : PrefixSet, T.clear.root_.children0 = .NULL ∧ T.clear.root_.children1 = .NULL ∧
      T.clear.root_.terminal = T.root_.terminal) ∧
    PrefixSet.empty.addParsed [0, 0, 0, 0] 0 = .ok (everything, true) ∧
    everything.clear = everything ∧
    everything.clear.getAll .AF_INET = .ok [([0, 0, 0, 0], 0)] :=
  ⟨fun _ => ⟨rfl, rfl, rfl⟩, rfl, rfl, rfl⟩

/-- C5 (the code departs from the claim): `copyRecur` overwrites a slot of the
destination only where the source has a child.  Assigning the empty set to the set
`[0.0.0.0/1]` leaves the destination as it was, so the two sets list different
prefixes afterwards; into an empty destination the copy is exact. -/
theorem assign_keeps_stale_children :
    PrefixSet.empty.addParsed [0, 0, 0, 0] 1 = .ok (lowerHalf, true) ∧
    lowerHalf.assign PrefixSet.empty = .ok lowerHalf ∧
    lowerHalf.getAll .AF_INET = .ok [([0, 0, 0, 0], 1)] ∧
    PrefixSet.empty.getAll .AF_INET = .ok [] ∧
    (∀ A : PrefixSet, PrefixSet.empty.assign A = .ok A) := by
  refine ⟨rfl, rfl, rfl, rfl, fun A => ?_⟩
  have h := copyRecur_fresh A.root_.addr _ _ _ rfl
  simp only [PrefixSet.assign, PrefixSet.empty]
  rw [h]
  rfl

theorem assignSelf_replaces_children :
    PrefixSet.empty.assignSelf = PrefixSet.empty ∧
    everything.assignSelf = everything ∧
    slash2.assignSelf = slash2Removed ∧
    slash2.assignSelf.getAll .AF_INET = .error .assertNotDangling :=
  ⟨rfl, rfl, rfl, rfl⟩

/-- C6 (the code departs from the claim): `remove` clears the slot of the target and
does not prune the ancestors left without children.  After `add("0.0.0.0/2")`, the call
`remove("0.0.0.0/2")` deletes the node at depth 2 and runs off its end; in the set it
leaves in memory the node at depth 1 is non-terminal and has no children, and the
assertion of line 145 fails in `getAll`. -/
theorem remove_leaves_dangling_node :
    PrefixSet.empty.addParsed [0, 0, 0, 0] 2 = .ok (slash2, true) ∧
    slash2.removeRanOff [0, 0, 0, 0] 2 = some slash2Removed ∧
    slash2.removeParsed [0, 0, 0, 0] 2 = .error .missingReturn ∧
    Reachable .AF_INET slash2Removed ∧
    slash2Removed.invariantB = false ∧
    slash2Removed.getAll .AF_INET = .error .assertNotDangling :=
  ⟨rfl, rfl, rfl,
    .removeRanOff slash2 slash2Removed [0, 0, 0, 0] 2
      (.add PrefixSet.empty slash2 [0, 0, 0, 0] 2 true .empty rfl (by decide) rfl)
      rfl (by decide) rfl,
    rfl, rfl⟩

/-! ## remove: the value returned -/

theorem absentOnPath_cons_addr (bit : Bool) (bits : List Bool) (node : Node) :
    absentOnPath (bit :: bits) node.addr
      = (!node.terminal && absentOnPath bits (node.children bit)) := by
  cases bit <;> rfl

theorem removeLoop_absent (bytes : List Nat) (k : Nat) :
    ∀ (i : Nat) (node : Node), i + k ≤ 8 * bytes.length →
      absentOnPath (bitsFrom bytes i k) node.addr = true →
      removeLoop bytes k i node = .ok (.returned node true) := by
  induction k with
  | zero => intro i node _ h; simp [bitsFrom, absentOnPath, Node.addr] at h
  | succ k ih =>
    intro i node hlen h
    have hb := bitAt_eq_some bytes i (by omega)
    simp only [bitsFrom, absentOnPath_cons_addr, Bool.and_eq_true, Bool.not_eq_true'] at h
    obtain ⟨ht, hchild⟩ := h
    simp only [removeLoop, hb, ht, Bool.false_eq_true, if_false]
    cases hc : node.children (bitOf bytes i) with
    | NULL => rfl
    | ptr a b t =>
      rw [hc] at hchild
      have hrec := ih (i + 1) ⟨a, b, t⟩ (by omega) hchild
      simp only [hrec]
      have : node.setChildren (bitOf bytes i) (Node.addr ⟨a, b, t⟩) = node := by
        rw [show Node.addr ⟨a, b, t⟩ = .ptr a b t from rfl, ← hc, setChildren_children]
      rw [this]

theorem removeLoop_present (bytes : List Nat) (k : Nat) :
    ∀ (i : Nat) (node : Node), i + k ≤ 8 * bytes.length →
      absentOnPath (bitsFrom bytes i k) node.addr = false →
      (k = 0 → removeLoop bytes k i node = .ok .atTarget) ∧
      (0 < k → ∃ node', removeLoop bytes k i node = .ok (.ranOff node')) := by
  induction k with
  | zero => intro i node _ _; exact ⟨fun _ => rfl, fun h => absurd h (by omega)⟩
  | succ k ih =>
    intro i node hlen h
    refine ⟨fun h0 => absurd h0 (by omega), fun _ => ?_⟩
    have hb := bitAt_eq_some bytes i (by omega)
    simp only [bitsFrom, absentOnPath_cons_addr] at h
    simp only [removeLoop, hb]
    have hchild : absentOnPath (bitsFrom bytes (i + 1) k)
        ((if node.terminal = true then node.split else node).children (bitOf bytes i))
          = false := by
      cases ht : node.terminal with
      | true =>
        have : (node.split).children (bitOf bytes i) = Node.ctor.setTerminal.addr := by
          cases bitOf bytes i <;> rfl
        simp only [if_true, this]
        cases k <;> rfl
      | false => simpa [ht] using h
    generalize (if node.terminal = true then node.split else node) = parent at hchild ⊢
    cases hc : parent.children (bitOf bytes i) with
    | NULL => rw [hc] at hchild; simp [absentOnPath] at hchild
    | ptr a b t =>
      rw [hc] at hchild
      obtain ⟨h0, hpos⟩ := ih (i + 1) ⟨a, b, t⟩ (by omega) hchild
      cases k with
      | zero =>
        exact ⟨parent.setChildren (bitOf bytes i) .NULL, by simp only [h0 rfl]⟩
      | succ k =>
        obtain ⟨child, hchild2⟩ := hpos (by omega)
        exact ⟨parent.setChildren (bitOf bytes i) child.addr, by simp only [hchild2]⟩

/-- C11: removing an absent prefix is a no-op that succeeds.  For every set `T` and every
prefix `bytes/n` of the family with `1 ≤ n ≤ W` such that, walking the bits from the
root, a required child is missing before depth `n` is reached and no terminal node was
met, `remove` returns `true` and leaves `T` unchanged. -/
theorem remove_absent_noop (fam : AddrFamily) (T : PrefixSet) (bytes : List Nat) (n : Nat)
    (hlen : bytes.length = kByteLen fam) (_h1 : 1 ≤ n) (hn : n ≤ bitWidth fam)
    (habs : T.absent bytes n = true) :
    T.removeParsed bytes n = .ok (T, true) := by
  have := removeLoop_absent bytes n 0 T.root_ (by rw [hlen]; simpa using hn) habs
  simp [PrefixSet.removeParsed, this]

theorem remove_absent_noop_witness :
    (([1, 2, 3, 0] : List Nat).length = kByteLen .AF_INET ∧ 1 ≤ 24 ∧ 24 ≤ bitWidth .AF_INET ∧
      PrefixSet.empty.absent [1, 2, 3, 0] 24 = true) ∧
    PrefixSet.empty.removeParsed [1, 2, 3, 0] ((24 : Nat) : Int) = .ok (PrefixSet.empty, true) ∧
    PrefixSet.empty.remove inetPton4 "1.2.3.0/24".toList = .ok (PrefixSet.empty, true) ∧
    PrefixSet.empty.getAll .AF_INET = .ok [] :=
  ⟨⟨by decide, by decide, by decide, by decide⟩,
    remove_absent_noop .AF_INET PrefixSet.empty [1, 2, 3, 0] 24 (by decide) (by decide)
      (by decide) (by decide),
    rfl, rfl⟩

/-- C12 (the code departs from the claim): `remove` has a `return` statement only for a
parse failure and for a missing child.  When the walk reaches the target, control runs
off the end of the function (line 116) and no value is returned: so for
`remove("0.0.0.0/1")` on the set `[0.0.0.0/0]`, a string `parsePrefix` accepts, where the
set in memory at that point is `[128.0.0.0/1]`.  With a parsed length of 0 the call does
not complete at all. -/
theorem remove_returns_no_value :
    parsePrefix inetPton4 "0.0.0.0/1".toList = some ([0, 0, 0, 0], 1) ∧
    everything.remove inetPton4 "0.0.0.0/1".toList = .error .missingReturn ∧
    everything.removeRanOff [0, 0, 0, 0] 1 = some upperHalf ∧
    parsePrefix inetPton4 "0.0.0.0/0".toList = some ([0, 0, 0, 0], 0) ∧
    everything.remove inetPton4 "0.0.0.0/0".toList = .error .nullParent :=
  ⟨by decide, rfl, rfl, by decide, rfl⟩

/-- C13: malformed input is rejected atomically.  For every set `T` and every text on
which `parsePrefix` reports failure, `add` and `remove` both return `false` and leave `T`
as it was. -/
theorem malformed_rejected (pton : List Char → Option (List Nat)) (T : PrefixSet)
    (text : List Char) (h : parsePrefix pton text = none) :
    T.add pton text = .ok (T, false) ∧ T.remove pton text = .ok (T, false) := by
  simp [PrefixSet.add, PrefixSet.remove, h]

/-- C14 (the code departs from the claim): with a parsed length of 0 the loop of `remove`
does not run, `parent` is still `NULL` at line 110 and is dereferenced there: the call
does not complete, on any set and for any address. -/
theorem remove_length_zero_null_parent :
    (∀ (T : PrefixSet) (bytes : List Nat), T.removeParsed bytes 0 = .error .nullParent) ∧
    everything.remove inetPton4 "0.0.0.0/0".toList = .error .nullParent ∧
    PrefixSet.empty.remove inetPton4 "0.0.0.0/0".toList = .error .nullParent :=
  ⟨fun _ _ => rfl, rfl, rfl⟩

theorem malformed_rejected_witness :
    (parsePrefix inetPton4 "not-an-ip/24".toList = none ∧
      parsePrefix inetPton4 "1.2.3.4".toList = none ∧
      parsePrefix inetPton4 "1.2.3.4/".toList = none) ∧
    (lowerHalf.add inetPton4 "not-an-ip/24".toList = .ok (lowerHalf, false) ∧
      lowerHalf.remove inetPton4 "not-an-ip/24".toList = .ok (lowerHalf, false)) :=
  ⟨⟨by decide, by decide, by decide⟩,
    malformed_rejected inetPton4 lowerHalf "not-an-ip/24".toList (by decide)⟩

theorem sscanfU_out_of_range :
    sscanfU "18446744073709551615".toList = some (-1) ∧
    sscanfU "18446744073709551616".toList = some (-1) ∧
    sscanfU "99999999999999999999".toList = some (-1) ∧
    sscanfU "-99999999999999999999".toList = some (-1) ∧
    sscanfU "4294967297".toList = some 1 ∧
    sscanfU "-4294967297".toList = some (-1) := by
  decide

/-- C15 (the code departs from the claim): `parsePrefix` does not compare the length with
the address width.  It accepts `"0.0.0.0/33"` with the length 33, and `add` on the empty
set then reads `bytes[4]` of the 4-byte buffer at `i = 32`; a length text of `-1` is
accepted as well, with the length -1. -/
theorem length_not_validated :
    parsePrefix inetPton4 "0.0.0.0/33".toList = some ([0, 0, 0, 0], 33) ∧
    ¬ (33 ≤ bitWidth .AF_INET) ∧
    bitAt [0, 0, 0, 0] 32 = none ∧
    PrefixSet.empty.add inetPton4 "0.0.0.0/33".toList = .error .bytesOutOfRange ∧
    everything.remove inetPton4 "0.0.0.0/33".toList = .error .bytesOutOfRange ∧
    parsePrefix inetPton4 "0.0.0.0/-1".toList = some ([0, 0, 0, 0], -1) :=
  ⟨by decide, by decide, by decide, rfl, rfl, by decide⟩

/-! ## parsePrefix -/

theorem find_append_slash (a b : List Char) (h : '/' ∉ a) :
    find (a ++ '/' :: b) '/' = some a.length := by
  have hidx : (a ++ '/' :: b).indexOf '/' = a.length := by
    rw [List.indexOf_append_of_not_mem h, List.indexOf_cons_self]
    rfl
  simp [find, hidx]

theorem parsePrefix_append_slash (pton : List Char → Option (List Nat)) (a b : List Char)
    (h : '/' ∉ a) : parsePrefix pton (a ++ '/' :: b) = parseParts pton a b := by
  simp [parsePrefix, find_append_slash a b h]

theorem parsePrefix_no_slash (pton : List Char → Option (List Nat)) (text : List Char)
    (h : '/' ∉ text) : parsePrefix pton text = none := by
  have : ¬ text.indexOf '/' < text.length := by
    rw [List.indexOf_lt_length]; exact h
  simp [parsePrefix, find, this]

/-- C16, the claim as stated fails: the text `1.2.3.4/5/6` is split at its first
separator.  The address text is `1.2.3.4` and the length text is `5/6`, read as 5, so the
text is accepted; split at the last separator, the address text `1.2.3.4/5` would be
rejected. -/
theorem split_not_at_last_slash :
    parsePrefix inetPton4 "1.2.3.4/5/6".toList = parseParts inetPton4 "1.2.3.4".toList "5/6".toList ∧
    parsePrefix inetPton4 "1.2.3.4/5/6".toList = some ([1, 2, 3, 4], 5) ∧
    parseParts inetPton4 "1.2.3.4/5".toList "6".toList = none ∧
    parsePrefix inetPton4 "1.2.3.4/5/6".toList ≠ parseParts inetPton4 "1.2.3.4/5".toList "6".toList := by
  decide

/-- C16, amended: `parsePrefix` splits its input at the first separator.  For every text
`a ++ "/" ++ b` in which `a` has no separator, the string handed to the address parser is
`a` and the string handed to `sscanf` is `b`; a text with no separator is rejected. -/
theorem split_at_first_slash (pton : List Char → Option (List Nat)) (a b : List Char)
    (h : '/' ∉ a) :
    find (a ++ '/' :: b) '/' = some a.length ∧
    (a ++ '/' :: b).take a.length = a ∧ (a ++ '/' :: b).drop (a.length + 1) = b ∧
    parsePrefix pton (a ++ '/' :: b) = parseParts pton a b :=
  ⟨find_append_slash a b h, by simp, by simp, parsePrefix_append_slash pton a b h⟩

theorem split_at_first_slash_witness :
    '/' ∉ "1.2.3.4".toList ∧
    (find ("1.2.3.4".toList ++ '/' :: "5/6".toList) '/' = some "1.2.3.4".toList.length ∧
      ("1.2.3.4".toList ++ '/' :: "5/6".toList).take "1.2.3.4".toList.length = "1.2.3.4".toList ∧
      ("1.2.3.4".toList ++ '/' :: "5/6".toList).drop ("1.2.3.4".toList.length + 1)
        = "5/6".toList ∧
      parsePrefix inetPton4 ("1.2.3.4".toList ++ '/' :: "5/6".toList)
        = parseParts inetPton4 "1.2.3.4".toList "5/6".toList) :=
  ⟨by decide, split_at_first_slash inetPton4 "1.2.3.4".toList "5/6".toList (by decide)⟩

theorem parseParts_of_empty_field (pton : List Char → Option (List Nat)) (ip len : List Char)
    (h : unsignedField (cStr len) = []) : parseParts pton ip len = none := by
  simp [parseParts, sscanfU, h]

/-- C17, the claim as stated fails: `sscanf` with `%u` stops at the first character that
is not a digit and skips white space and a sign before the digits, so the length texts
`24abc`, `+24`, ` 24` and `-1`, none of them a run of decimal digits, are accepted. -/
theorem length_text_not_only_digits :
    ("24abc".toList.all Char.isDigit = false ∧
      parsePrefix inetPton4 "1.2.3.4/24abc".toList = some ([1, 2, 3, 4], 24)) ∧
    ("+24".toList.all Char.isDigit = false ∧
      parsePrefix inetPton4 "1.2.3.4/+24".toList = some ([1, 2, 3, 4], 24)) ∧
    (" 24".toList.all Char.isDigit = false ∧
      parsePrefix inetPton4 "1.2.3.4/ 24".toList = some ([1, 2, 3, 4], 24)) ∧
    ("-1".toList.all Char.isDigit = false ∧
      parsePrefix inetPton4 ("1.2.3.4/".toList ++ "-1".toList) = some ([1, 2, 3, 4], -1)) := by
  decide

/-- C17, amended: `parsePrefix` fails when `sscanf` finds no integer.  For every text
`a ++ "/" ++ b` in which `a` has no separator, if `b` (up to its first NUL) has no decimal
digit right after its leading white space and an optional sign, then `parsePrefix`
reports failure, whatever the address parser does; so it is when `b` is empty. -/
theorem length_without_digits_rejected (pton : List Char → Option (List Nat))
    (a b : List Char) (h : '/' ∉ a) (hb : unsignedField (cStr b) = []) :
    parsePrefix pton (a ++ '/' :: b) = none ∧ parsePrefix pton (a ++ ['/']) = none := by
  constructor
  · rw [parsePrefix_append_slash pton a b h]
    exact parseParts_of_empty_field pton a b hb
  · rw [parsePrefix_append_slash pton a [] h]
    exact parseParts_of_empty_field pton a [] rfl

theorem length_without_digits_rejected_witness :
    ('/' ∉ "1.2.3.4".toList ∧ unsignedField (cStr "abc".toList) = []) ∧
    (parsePrefix inetPton4 ("1.2.3.4".toList ++ '/' :: "abc".toList) = none ∧
      parsePrefix inetPton4 ("1.2.3.4".toList ++ ['/']) = none) :=
  ⟨⟨by decide, by decide⟩,
    length_without_digits_rejected inetPton4 "1.2.3.4".toList "abc".toList (by decide)
      (by decide)⟩

/-! ## add after remove -/

theorem split_setChildren_terminal (node : Node) (bit : Bool) :
    node.split.setChildren bit Node.ctor.setTerminal.addr = node.split := by
  cases bit <;> rfl

theorem addPath_removePath (bits : List Bool) :
    ∀ node : Node, terminalsChildless node.addr = true → noTerminalSiblings node.addr = true →
      coveredPath bits node.addr = true →
      addPath bits (removePath bits node.addr).orNew = (node, node.terminal) := by
  induction bits with
  | nil =>
    intro node hA _ hcov
    have ht : node.terminal = true := by simpa [coveredPath, Node.addr] using hcov
    have hnode := setTerminal_of_terminal node ht hA
    rw [ht]
    conv_rhs => rw [← hnode]
    rfl
  | cons bit bits ih =>
    intro node hA hC hcov
    rw [removePath_cons, addr_orNew]
    cases ht : node.terminal with
    | true =>
      have hnode := setTerminal_of_terminal node ht hA
      have hrec := ih Node.ctor.setTerminal rfl rfl (coveredPath_terminalNode bits)
      have hchild : node.split.children bit = Node.ctor.setTerminal.addr := by
        cases bit <;> rfl
      simp only [if_true, hchild]
      have hstep : addPath (bit :: bits)
          (node.split.setChildren bit (removePath bits Node.ctor.setTerminal.addr))
            = (node.split.setTerminal, true) := by
        simp only [addPath, terminal_setChildren, children_setChildren_same, hrec,
          setChildren_setChildren, split_setChildren_terminal]
        rfl
      rw [hstep]
      conv_rhs => rw [← hnode]
      rfl
    | false =>
      rw [coveredPath_cons_addr, ht, Bool.false_or] at hcov
      have hc := orNew_addr_of_covered bits _ hcov
      have hrec := ih (node.children bit).orNew
        (by rw [terminalsChildless_orNew]; exact terminalsChildless_children node bit hA)
        (by rw [noTerminalSiblings_orNew]; exact noTerminalSiblings_children node bit hC)
        (by rw [hc]; exact hcov)
      rw [hc] at hrec
      have hco := canCoalesce_false_of_noTerminalSiblings node hC
      simp only [Bool.false_eq_true, if_false]
      simp only [addPath, terminal_setChildren, ht, children_setChildren_same, hrec,
        setChildren_setChildren, hc, setChildren_children, hco, Bool.and_false,
        Bool.false_eq_true, if_false]

theorem absentOnPath_of_coveredPath (bits : List Bool) :
    ∀ p : NodePtr, coveredPath bits p = true → absentOnPath bits p = false := by
  induction bits with
  | nil => intro p h; cases p <;> simp_all [coveredPath, absentOnPath]
  | cons bit bits ih =>
    intro p h
    cases p with
    | NULL => simp [coveredPath] at h
    | ptr c0 c1 t =>
      cases t with
      | true => simp [absentOnPath]
      | false =>
        simp only [coveredPath, Bool.false_or] at h
        simp only [absentOnPath, Bool.not_false, Bool.true_and]
        exact ih _ h

/-- C20 (the code departs from the claim): on a covered prefix `remove` does not complete.
For every set `T` reachable from the empty set by `add` and `remove`, and every prefix
`bytes/n` of the family with `1 ≤ n ≤ W` such that a terminal node of `T` lies on the bit
path of the prefix at a depth of at most `n`, the walk of `remove` reaches its target and
the call runs off the end of the function with no `return` statement (line 116), so that
`remove(p)` followed by `add(p)` is not a defined run.  In the set `T1` that the call
leaves in memory at that point, `add` of the same prefix returns `true` and gives back
`T`. -/
theorem remove_covered_runs_off (fam : AddrFamily) (T : PrefixSet) (bytes : List Nat)
    (n : Nat) (hT : Reachable fam T) (hlen : bytes.length = kByteLen fam) (h1 : 1 ≤ n)
    (hn : n ≤ bitWidth fam) (hcov : T.coversPrefix bytes n = true) :
    T.removeParsed bytes n = .error .missingReturn ∧
    ∃ T1 : PrefixSet, T.removeRanOff bytes n = some T1 ∧
      T1.addParsed bytes n = .ok (T, true) := by
  obtain ⟨hA, hC⟩ := invariants_of_reachable fam T hT
  have hn8 : n ≤ 8 * bytes.length := by rw [hlen]; exact hn
  have hpres : absentOnPath (bitsFrom bytes 0 n) T.root_.addr = false :=
    absentOnPath_of_coveredPath _ _ hcov
  obtain ⟨root, hloop⟩ := (removeLoop_present bytes n 0 T.root_ (by omega) hpres).2 (by omega)
  have hoff : T.removeRanOff bytes n = some { root_ := root } := by
    simp [PrefixSet.removeRanOff, hloop]
  refine ⟨by simp [PrefixSet.removeParsed, hloop], _, hoff, ?_⟩
  have hroot := root_of_removeRanOff T _ bytes n h1 hn8 hoff
  rw [addParsed_eq _ bytes n hn8]
  have hback := addPath_removePath (bitsFrom bytes 0 n) T.root_ hA hC hcov
  rw [← hroot, addr_orNew] at hback
  simp only [hback]

theorem remove_covered_runs_off_witness :
    (Reachable .AF_INET slash24 ∧ ([10, 0, 0, 77] : List Nat).length = kByteLen .AF_INET ∧
      1 ≤ 32 ∧ 32 ≤ bitWidth .AF_INET ∧ slash24.coversPrefix [10, 0, 0, 77] 32 = true) ∧
    (slash24.removeParsed [10, 0, 0, 77] ((32 : Nat) : Int) = .error .missingReturn ∧
      ∃ T1 : PrefixSet, slash24.removeRanOff [10, 0, 0, 77] ((32 : Nat) : Int) = some T1 ∧
        T1.addParsed [10, 0, 0, 77] ((32 : Nat) : Int) = .ok (slash24, true)) ∧
    slash24.remove inetPton4 "10.0.0.77/32".toList = .error .missingReturn :=
  ⟨⟨.add PrefixSet.empty slash24 [10, 0, 0, 0] 24 true .empty rfl (by decide) rfl,
      by decide, by decide, by decide, by decide⟩,
    remove_covered_runs_off .AF_INET slash24 [10, 0, 0, 77] 32
      (.add PrefixSet.empty slash24 [10, 0, 0, 0] 24 true .empty rfl (by decide) rfl)
      (by decide) (by decide) (by decide) (by decide),
    rfl⟩

/-! ## The order of insertions -/

theorem noDangling_addPath (bits : List Bool) :
    ∀ node : Node, noDangling node.children0 = true → noDangling node.children1 = true →
      noDangling (addPath bits node).1.addr = true := by
  induction bits with
  | nil => intro node _ _; rfl
  | cons bit bits ih =>
    intro node h0 h1
    rcases addPath_cases bit bits node with ⟨ht, h⟩ | ⟨-, -, -, h⟩ | ⟨-, -, h⟩ <;> rw [h]
    · simp [Node.addr, noDangling, ht, h0, h1]
    · rfl
    · have hchild : noDangling (addPath bits (node.children bit).orNew).1.addr = true := by
        apply ih
        · cases hc : node.children bit with
          | NULL => rfl
          | ptr a b t =>
            have : noDangling (.ptr a b t) = true := by
              rw [← hc]; cases bit <;> simp [Node.children, h0, h1]
            simp only [noDangling, Bool.and_eq_true] at this
            exact this.2.1
        · cases hc : node.children bit with
          | NULL => rfl
          | ptr a b t =>
            have : noDangling (.ptr a b t) = true := by
              rw [← hc]; cases bit <;> simp [Node.children, h0, h1]
            simp only [noDangling, Bool.and_eq_true] at this
            exact this.2.2
      generalize (addPath bits (node.children bit).orNew).1 = child at hchild
      obtain ⟨c0, c1, t⟩ := node
      obtain ⟨a, b, s⟩ := child
      simp only at h0 h1
      cases bit <;>
        simp [Node.addr, Node.setChildren, noDangling, h0, h1] at hchild ⊢ <;>
        exact hchild

theorem nonTerminalsAbove_setChildren (k : Nat) (node : Node) (bit : Bool) (q : NodePtr)
    (h0 : nonTerminalsAbove k node.children0 = true)
    (h1 : nonTerminalsAbove k node.children1 = true) (hq : nonTerminalsAbove k q = true) :
    nonTerminalsAbove (k + 1) (node.setChildren bit q).addr = true := by
  obtain ⟨c0, c1, t⟩ := node
  simp only at h0 h1
  cases bit <;> simp [Node.addr, Node.setChildren, nonTerminalsAbove, h0, h1, hq]

theorem nonTerminalsAbove_addPath (bits : List Bool) :
    ∀ (k : Nat) (node : Node), bits.length ≤ k →
      (node.terminal = true ∨
        (nonTerminalsAbove (k - 1) node.children0 = true ∧
          nonTerminalsAbove (k - 1) node.children1 = true)) →
      nonTerminalsAbove k (addPath bits node).1.addr = true := by
  induction bits with
  | nil => intro k node _ _; cases k <;> rfl
  | cons bit bits ih =>
    intro k node hk hW
    obtain ⟨k, rfl⟩ : ∃ k', k = k' + 1 := ⟨k - 1, by simp at hk; omega⟩
    simp only [Nat.add_sub_cancel] at hW
    have hk2 : bits.length ≤ k := by simpa using hk
    rcases addPath_cases bit bits node with ⟨ht, h⟩ | ⟨-, -, -, h⟩ | ⟨ht, -, h⟩ <;> rw [h]
    · simp [Node.addr, nonTerminalsAbove, ht]
    · rfl
    · obtain ⟨hW0, hW1⟩ := hW.resolve_left (by simp [ht])
      have hchild : nonTerminalsAbove k (addPath bits (node.children bit).orNew).1.addr
          = true := by
        apply ih k _ hk2
        cases hc : node.children bit with
        | NULL => right; exact ⟨by cases k <;> rfl, by cases k <;> rfl⟩
        | ptr a b t =>
          have hptr : nonTerminalsAbove k (.ptr a b t) = true := by
            rw [← hc]; cases bit <;> simp [Node.children, hW0, hW1]
          simp only [nonTerminalsAbove, Bool.or_eq_true, Bool.and_eq_true,
            decide_eq_true_eq] at hptr
          rcases hptr with h' | h'
          · left; exact h'
          · right; exact h'.2
      exact nonTerminalsAbove_setChildren k node bit _ hW0 hW1 hchild

theorem exists_covered (p : NodePtr) :
    ∀ k : Nat, p ≠ .NULL → noDangling p = true → nonTerminalsAbove k p = true →
      ∃ as : List Bool, as.length = k ∧ coveredPath as p = true := by
  induction p with
  | NULL => intro k h; exact absurd rfl h
  | ptr c0 c1 t ih0 ih1 =>
    intro k _ hB hW
    cases t with
    | true =>
      exact ⟨List.replicate k false, by simp, coveredPath_of_isTerminal _ _ rfl⟩
    | false =>
      simp only [noDangling, Bool.false_or, Bool.and_eq_true, Bool.not_eq_true',
        Bool.and_eq_false_iff, decide_eq_false_iff_not] at hB
      simp only [nonTerminalsAbove, Bool.false_or, Bool.and_eq_true, decide_eq_true_eq] at hW
      obtain ⟨hchild, hB0, hB1⟩ := hB
      obtain ⟨hpos, hW0, hW1⟩ := hW
      rcases hchild with h | h
      · obtain ⟨as, hlen, hcov⟩ := ih0 (k - 1) h hB0 hW0
        exact ⟨false :: as, by simp [hlen]; omega, by simp [coveredPath, hcov]⟩
      · obtain ⟨as, hlen, hcov⟩ := ih1 (k - 1) h hB1 hW1
        exact ⟨true :: as, by simp [hlen]; omega, by simp [coveredPath, hcov]⟩

theorem isTerminal_of_all_covered (p : NodePtr) :
    ∀ k : Nat, noTerminalSiblings p = true → nonTerminalsAbove k p = true →
      (∀ as : List Bool, as.length = k → coveredPath as p = true) → p.isTerminal = true := by
  induction p with
  | NULL =>
    intro k _ _ hall
    have := hall (List.replicate k false) (by simp)
    simp [coveredPath] at this
  | ptr c0 c1 t ih0 ih1 =>
    intro k hC hW hall
    cases t with
    | true => rfl
    | false =>
      exfalso
      simp only [noTerminalSiblings, Bool.and_eq_true, Bool.not_eq_true',
        Bool.and_eq_false_iff] at hC
      simp only [nonTerminalsAbove, Bool.false_or, Bool.and_eq_true, decide_eq_true_eq] at hW
      obtain ⟨hnot, hC0, hC1⟩ := hC
      obtain ⟨hpos, hW0, hW1⟩ := hW
      have h0 := ih0 (k - 1) hC0 hW0 (fun as hlen => by
        have := hall (false :: as) (by simp [hlen]; omega)
        simpa [coveredPath] using this)
      have h1 := ih1 (k - 1) hC1 hW1 (fun as hlen => by
        have := hall (true :: as) (by simp [hlen]; omega)
        simpa [coveredPath] using this)
      rcases hnot with h | h
      · rw [h0] at h; simp at h
      · rw [h1] at h; simp at h

theorem eq_terminalNode_of_isTerminal (p : NodePtr) (hA : terminalsChildless p = true)
    (ht : p.isTerminal = true) : p = Node.ctor.setTerminal.addr := by
  cases p with
  | NULL => simp [NodePtr.isTerminal] at ht
  | ptr c0 c1 t =>
    simp only [NodePtr.isTerminal] at ht
    subst ht
    simp only [terminalsChildless, Bool.and_eq_true, Bool.or_eq_true, Bool.not_eq_true',
      decide_eq_true_eq] at hA
    obtain ⟨h0, h1⟩ := hA.1.resolve_left (by simp)
    subst h0 h1
    rfl

theorem canonical_unique (p : NodePtr) :
    ∀ (k : Nat) (q : NodePtr),
      terminalsChildless p = true → noTerminalSiblings p = true → noDangling p = true →
      nonTerminalsAbove k p = true →
      terminalsChildless q = true → noTerminalSiblings q = true → noDangling q = true →
      nonTerminalsAbove k q = true →
      (∀ as : List Bool, as.length = k → coveredPath as p = coveredPath as q) → p = q := by
  induction p with
  | NULL =>
    intro k q _ _ _ _ _ _ hBq hWq hcov
    by_contra hne
    obtain ⟨as, hlen, hc⟩ := exists_covered q k (fun h => hne h.symm) hBq hWq
    rw [← hcov as hlen] at hc
    simp [coveredPath] at hc
  | ptr c0 c1 t ih0 ih1 =>
    intro k q hAp hCp hBp hWp hAq hCq hBq hWq hcov
    cases q with
    | NULL =>
      obtain ⟨as, hlen, hc⟩ := exists_covered (.ptr c0 c1 t) k (by simp) hBp hWp
      rw [hcov as hlen] at hc
      simp [coveredPath] at hc
    | ptr d0 d1 s =>
      by_cases hts : t = true ∨ s = true
      · have hp : (NodePtr.ptr c0 c1 t).isTerminal = true := by
          rcases hts with h | h
          · exact h
          · refine isTerminal_of_all_covered _ k hCp hWp (fun as hlen => ?_)
            rw [hcov as hlen]
            exact coveredPath_of_isTerminal _ _ h
        have hq : (NodePtr.ptr d0 d1 s).isTerminal = true := by
          refine isTerminal_of_all_covered _ k hCq hWq (fun as hlen => ?_)
          rw [← hcov as hlen]
          exact coveredPath_of_isTerminal _ _ hp
        rw [eq_terminalNode_of_isTerminal _ hAp hp, eq_terminalNode_of_isTerminal _ hAq hq]
      · have ht : t = false := by cases t <;> simp_all
        have hs : s = false := by cases s <;> simp_all
        subst ht hs
        simp only [terminalsChildless, noTerminalSiblings, noDangling, nonTerminalsAbove,
          Bool.false_or, Bool.and_eq_true, decide_eq_true_eq] at hAp hCp hBp hWp hAq hCq hBq hWq
        have e0 := ih0 (k - 1) d0 hAp.2.1 hCp.2.1 hBp.2.1 hWp.2.1 hAq.2.1 hCq.2.1 hBq.2.1
          hWq.2.1 (fun as hlen => by
            have := hcov (false :: as) (by simp [hlen]; omega)
            simpa [coveredPath] using this)
        have e1 := ih1 (k - 1) d1 hAp.2.2 hCp.2.2 hBp.2.2 hWp.2.2 hAq.2.2 hCq.2.2 hBq.2.2
          hWq.2.2 (fun as hlen => by
            have := hcov (true :: as) (by simp [hlen]; omega)
            simpa [coveredPath] using this)
        rw [e0, e1]

theorem root_unique (k : Nat) (T1 T2 : PrefixSet)
    (hA1 : T1.invariantA = true) (hC1 : T1.aggregated = true) (hB1 : T1.invariantB = true)
    (hW1 : nonTerminalsAbove k T1.root_.addr = true)
    (hA2 : T2.invariantA = true) (hC2 : T2.aggregated = true) (hB2 : T2.invariantB = true)
    (hW2 : nonTerminalsAbove k T2.root_.addr = true)
    (hcov : ∀ as : List Bool, as.length = k →
      coveredPath as T1.root_.addr = coveredPath as T2.root_.addr) : T1 = T2 := by
  obtain ⟨⟨c0, c1, t⟩⟩ := T1
  obtain ⟨⟨d0, d1, s⟩⟩ := T2
  simp only [PrefixSet.invariantA, PrefixSet.aggregated, PrefixSet.invariantB, Node.addr,
    Bool.and_eq_true] at hA1 hC1 hB1 hW1 hA2 hC2 hB2 hW2 hcov
  have key : NodePtr.ptr c0 c1 t = NodePtr.ptr d0 d1 s := by
    by_cases hts : t = true ∨ s = true
    · have hp : (NodePtr.ptr c0 c1 t).isTerminal = true := by
        rcases hts with h | h
        · exact h
        · refine isTerminal_of_all_covered _ k hC1 hW1 (fun as hlen => ?_)
          rw [hcov as hlen]
          exact coveredPath_of_isTerminal _ _ h
      have hq : (NodePtr.ptr d0 d1 s).isTerminal = true := by
        refine isTerminal_of_all_covered _ k hC2 hW2 (fun as hlen => ?_)
        rw [← hcov as hlen]
        exact coveredPath_of_isTerminal _ _ hp
      rw [eq_terminalNode_of_isTerminal _ hA1 hp, eq_terminalNode_of_isTerminal _ hA2 hq]
    · have ht : t = false := by cases t <;> simp_all
      have hs : s = false := by cases s <;> simp_all
      subst ht hs
      simp only [terminalsChildless, noTerminalSiblings, nonTerminalsAbove,
        Bool.false_or, Bool.and_eq_true, decide_eq_true_eq] at hA1 hC1 hW1 hA2 hC2 hW2
      have e0 := canonical_unique c0 (k - 1) d0 hA1.2.1 hC1.2.1 hB1.1 hW1.2.1 hA2.2.1 hC2.2.1
        hB2.1 hW2.2.1 (fun as hlen => by
          have := hcov (false :: as) (by simp [hlen]; omega)
          simpa [coveredPath] using this)
      have e1 := canonical_unique c1 (k - 1) d1 hA1.2.2 hC1.2.2 hB1.2 hW1.2.2 hA2.2.2 hC2.2.2
        hB2.2 hW2.2.2 (fun as hlen => by
          have := hcov (true :: as) (by simp [hlen]; omega)
          simpa [coveredPath] using this)
      rw [e0, e1]
  simp only [NodePtr.ptr.injEq] at key
  obtain ⟨h0, h1, h2⟩ := key
  subst h0 h1 h2
  rfl

theorem invariantB_addParsed (T T' : PrefixSet) (bytes : List Nat) (n : Nat) (r : Bool)
    (hn : n ≤ 8 * bytes.length) (hT : T.invariantB = true)
    (hrun : T.addParsed bytes n = .ok (T', r)) : T'.invariantB = true := by
  rw [addParsed_eq T bytes n hn] at hrun
  simp only [Except.ok.injEq, Prod.mk.injEq] at hrun
  rw [← hrun.1]
  simp only [PrefixSet.invariantB, Bool.and_eq_true] at hT
  have := noDangling_addPath (bitsFrom bytes 0 n) T.root_ hT.1 hT.2
  simp only [Node.addr, noDangling, Bool.and_eq_true] at this
  simp only [PrefixSet.invariantB, Bool.and_eq_true]
  exact this.2

theorem withinWidth_addParsed (fam : AddrFamily) (T T' : PrefixSet) (bytes : List Nat)
    (n : Nat) (r : Bool) (hlen : bytes.length = kByteLen fam) (hn : n ≤ bitWidth fam)
    (hT : T.withinWidth fam = true)
    (hrun : T.addParsed bytes n = .ok (T', r)) : T'.withinWidth fam = true := by
  rw [addParsed_eq T bytes n (by rw [hlen]; exact hn)] at hrun
  simp only [Except.ok.injEq, Prod.mk.injEq] at hrun
  rw [← hrun.1]
  simp only [PrefixSet.withinWidth, Node.addr, nonTerminalsAbove, Bool.or_eq_true,
    Bool.and_eq_true, decide_eq_true_eq] at hT
  refine nonTerminalsAbove_addPath (bitsFrom bytes 0 n) (bitWidth fam) T.root_
    (by simpa using hn) ?_
  rcases hT with h | h
  · exact Or.inl h
  · exact Or.inr h.2

theorem invariants_of_reachableByAdd (fam : AddrFamily) (T : PrefixSet)
    (h : ReachableByAdd fam T) :
    T.invariantA = true ∧ T.aggregated = true ∧ T.invariantB = true ∧
      T.withinWidth fam = true := by
  induction h with
  | empty => exact ⟨rfl, rfl, rfl, by cases fam <;> rfl⟩
  | add T T' bytes n r _ hlen hn hrun ih =>
    have hn8 : n ≤ 8 * bytes.length := by rw [hlen]; exact hn
    exact ⟨invariantA_addParsed T T' bytes n r hn8 ih.1 hrun,
      aggregated_addParsed T T' bytes n r hn8 ih.2.1 hrun,
      invariantB_addParsed T T' bytes n r hn8 ih.2.2.1 hrun,
      withinWidth_addParsed fam T T' bytes n r hlen hn ih.2.2.2 hrun⟩

theorem addParsed_comm (fam : AddrFamily) (T : PrefixSet) (bytesP bytesQ : List Nat)
    (nP nQ : Nat) (hT : ReachableByAdd fam T)
    (hlenP : bytesP.length = kByteLen fam) (hnP : nP ≤ bitWidth fam)
    (hlenQ : bytesQ.length = kByteLen fam) (hnQ : nQ ≤ bitWidth fam) :
    ∃ Tp Tq Tpq : PrefixSet,
      T.addParsed bytesP nP = .ok (Tp, true) ∧ Tp.addParsed bytesQ nQ = .ok (Tpq, true) ∧
      T.addParsed bytesQ nQ = .ok (Tq, true) ∧ Tq.addParsed bytesP nP = .ok (Tpq, true) := by
  have h8P : nP ≤ 8 * bytesP.length := by rw [hlenP]; exact hnP
  have h8Q : nQ ≤ 8 * bytesQ.length := by rw [hlenQ]; exact hnQ
  have hp := addParsed_eq T bytesP nP h8P
  have hq := addParsed_eq T bytesQ nQ h8Q
  have hpq := addParsed_eq { root_ := (addPath (bitsFrom bytesP 0 nP) T.root_).1 } bytesQ nQ h8Q
  have hqp := addParsed_eq { root_ := (addPath (bitsFrom bytesQ 0 nQ) T.root_).1 } bytesP nP h8P
  have rP := ReachableByAdd.add T _ bytesP nP true hT hlenP hnP hp
  have rQ := ReachableByAdd.add T _ bytesQ nQ true hT hlenQ hnQ hq
  have rPQ := ReachableByAdd.add _ _ bytesQ nQ true rP hlenQ hnQ hpq
  have rQP := ReachableByAdd.add _ _ bytesP nP true rQ hlenP hnP hqp
  obtain ⟨a1, c1, b1, w1⟩ := invariants_of_reachableByAdd fam _ rPQ
  obtain ⟨a2, c2, b2, w2⟩ := invariants_of_reachableByAdd fam _ rQP
  have heq := root_unique (bitWidth fam) _ _ a1 c1 b1 w1 a2 c2 b2 w2 (fun as hlen => by
    simp only
    rw [coveredPath_addPath _ _ _ (by simpa [hlen] using hnQ),
      coveredPath_addPath _ _ _ (by simpa [hlen] using hnP),
      coveredPath_addPath _ _ _ (by simpa [hlen] using hnP),
      coveredPath_addPath _ _ _ (by simpa [hlen] using hnQ)]
    cases coveredPath as T.root_.addr <;>
      cases (bitsFrom bytesP 0 nP).isPrefixOf as <;>
      cases (bitsFrom bytesQ 0 nQ).isPrefixOf as <;> rfl)
  refine ⟨_, _, _, hp, hpq, hq, ?_⟩
  rw [hqp, heq]

theorem bitOf_cons_lt (c : Nat) (bs : List Nat) (j : Nat) (h : j < 8) :
    bitOf (c :: bs) j = (((c >>> (7 - j)) &&& 1) == 1) := by
  have h0 : j / 8 = 0 := by omega
  have h1 : j % 8 = j := by omega
  simp [bitOf, bitAt, h0, h1]

theorem bitOf_cons_add (c : Nat) (bs : List Nat) (i : Nat) :
    bitOf (c :: bs) (i + 8) = bitOf bs i := by
  have h0 : (i + 8) / 8 = i / 8 + 1 := by omega
  have h1 : (i + 8) % 8 = i % 8 := by omega
  simp [bitOf, bitAt, h0, h1]

theorem bitsFrom_cons_add (c : Nat) (bs : List Nat) (k : Nat) :
    ∀ i : Nat, bitsFrom (c :: bs) (i + 8) k = bitsFrom bs i k := by
  induction k with
  | zero => intro i; rfl
  | succ k ih =>
    intro i
    simp only [bitsFrom, bitOf_cons_add]
    rw [show i + 8 + 1 = (i + 1) + 8 by omega, ih (i + 1)]

theorem byte_bits : ∀ b0 b1 b2 b3 b4 b5 b6 b7 : Bool,
    (fun c : Nat =>
      [((c >>> 7) &&& 1) == 1, ((c >>> 6) &&& 1) == 1, ((c >>> 5) &&& 1) == 1,
       ((c >>> 4) &&& 1) == 1, ((c >>> 3) &&& 1) == 1, ((c >>> 2) &&& 1) == 1,
       ((c >>> 1) &&& 1) == 1, ((c >>> 0) &&& 1) == 1] = [b0, b1, b2, b3, b4, b5, b6, b7] ∧
      c < 256)
    (128 * b0.toNat + 64 * b1.toNat + 32 * b2.toNat + 16 * b3.toNat + 8 * b4.toNat
      + 4 * b5.toNat + 2 * b6.toNat + b7.toNat) := by
  decide

theorem bitsFrom_bytesOfBits (L : Nat) :
    ∀ as : List Bool, as.length = 8 * L →
      (bytesOfBits as).length = L ∧ (∀ c ∈ bytesOfBits as, c < 256) ∧
        bitsFrom (bytesOfBits as) 0 (8 * L) = as := by
  induction L with
  | zero =>
    intro as h
    have : as = [] := List.length_eq_zero.mp (by simpa using h)
    subst this
    exact ⟨rfl, by simp [bytesOfBits], rfl⟩
  | succ L ih =>
    intro as h
    match as, h with
    | b0 :: b1 :: b2 :: b3 :: b4 :: b5 :: b6 :: b7 :: rest, h =>
      have hrest : rest.length = 8 * L := by simp at h; omega
      obtain ⟨hl, hlt, hbits⟩ := ih rest hrest
      obtain ⟨hb, hc⟩ := byte_bits b0 b1 b2 b3 b4 b5 b6 b7
      simp only [List.cons.injEq, and_true] at hb
      refine ⟨by simp [bytesOfBits, hl], ?_, ?_⟩
      · intro c hcmem
        simp only [bytesOfBits, List.mem_cons] at hcmem
        rcases hcmem with h' | h'
        · rw [h']; exact hc
        · exact hlt c h'
      · rw [show 8 * (L + 1) = 8 * L + 1 + 1 + 1 + 1 + 1 + 1 + 1 + 1 by omega]
        simp only [bitsFrom, bytesOfBits, Nat.zero_add]
        rw [bitOf_cons_lt _ _ 0 (by omega), bitOf_cons_lt _ _ 1 (by omega),
          bitOf_cons_lt _ _ 2 (by omega), bitOf_cons_lt _ _ 3 (by omega),
          bitOf_cons_lt _ _ 4 (by omega), bitOf_cons_lt _ _ 5 (by omega),
          bitOf_cons_lt _ _ 6 (by omega), bitOf_cons_lt _ _ 7 (by omega)]
        have h8 := bitsFrom_cons_add
          (128 * b0.toNat + 64 * b1.toNat + 32 * b2.toNat + 16 * b3.toNat + 8 * b4.toNat
            + 4 * b5.toNat + 2 * b6.toNat + b7.toNat) (bytesOfBits rest) (8 * L) 0
        simp only [Nat.zero_add] at h8
        rw [h8, hbits]
        simp only [Nat.sub_self, Nat.sub_zero] at hb ⊢
        obtain ⟨e0, e1, e2, e3, e4, e5, e6, e7⟩ := hb
        simp only [show 7 - 1 = 6 from rfl, show 7 - 2 = 5 from rfl, show 7 - 3 = 4 from rfl,
          show 7 - 4 = 3 from rfl, show 7 - 5 = 2 from rfl, show 7 - 6 = 1 from rfl,
          e0, e1, e2, e3, e4, e5, e6, e7]
    | [], h => simp at h
    | [_], h => simp at h; omega
    | [_, _], h => simp at h; omega
    | [_, _, _], h => simp at h; omega
    | [_, _, _, _], h => simp at h; omega
    | [_, _, _, _, _], h => simp at h; omega
    | [_, _, _, _, _, _], h => simp at h; omega
    | [_, _, _, _, _, _, _], h => simp at h; omega

theorem eq_of_covers_eq (fam : AddrFamily) (T1 T2 : PrefixSet)
    (h1 : ReachableByAdd fam T1) (h2 : ReachableByAdd fam T2)
    (hcov : ∀ addr : List Nat, addr.length = kByteLen fam → (∀ c ∈ addr, c < 256) →
      T1.covers fam addr = T2.covers fam addr) : T1 = T2 := by
  obtain ⟨a1, c1, b1, w1⟩ := invariants_of_reachableByAdd fam T1 h1
  obtain ⟨a2, c2, b2, w2⟩ := invariants_of_reachableByAdd fam T2 h2
  refine root_unique (bitWidth fam) T1 T2 a1 c1 b1 w1 a2 c2 b2 w2 (fun as hlen => ?_)
  obtain ⟨hl, hlt, hbits⟩ := bitsFrom_bytesOfBits (kByteLen fam) as hlen
  have := hcov (bytesOfBits as) hl hlt
  simp only [PrefixSet.covers, bitWidth, hbits] at this
  exact this

/-- C18: the order of insertions does not matter.  For every set `T` reachable from the
empty set by `add`, and all prefixes `bytesP/nP` and `bytesQ/nQ` of the family with
lengths in `0..W`, the four calls of `add` complete and return `true`, and `add(p)`
followed by `add(q)` leaves the same set as `add(q)` followed by `add(p)`.  Two sets
reachable by `add` that cover the same addresses of the family are the same set. -/
theorem insertion_order_irrelevant (fam : AddrFamily) :
    (∀ (T : PrefixSet) (bytesP bytesQ : List Nat) (nP nQ : Nat),
      ReachableByAdd fam T →
      bytesP.length = kByteLen fam → nP ≤ bitWidth fam →
      bytesQ.length = kByteLen fam → nQ ≤ bitWidth fam →
      ∃ Tp Tq Tpq : PrefixSet,
        T.addParsed bytesP nP = .ok (Tp, true) ∧ Tp.addParsed bytesQ nQ = .ok (Tpq, true) ∧
        T.addParsed bytesQ nQ = .ok (Tq, true) ∧ Tq.addParsed bytesP nP = .ok (Tpq, true)) ∧
    (∀ T1 T2 : PrefixSet, ReachableByAdd fam T1 → ReachableByAdd fam T2 →
      (∀ addr : List Nat, addr.length = kByteLen fam → (∀ c ∈ addr, c < 256) →
        T1.covers fam addr = T2.covers fam addr) → T1 = T2) :=
  ⟨fun T bytesP bytesQ nP nQ hT hlenP hnP hlenQ hnQ =>
      addParsed_comm fam T bytesP bytesQ nP nQ hT hlenP hnP hlenQ hnQ,
    fun T1 T2 h1 h2 hcov => eq_of_covers_eq fam T1 T2 h1 h2 hcov⟩

theorem insertion_order_irrelevant_witness :
    (ReachableByAdd .AF_INET lowerHalf ∧
      ([128, 0, 0, 0] : List Nat).length = kByteLen .AF_INET ∧ 1 ≤ bitWidth .AF_INET ∧
      ([10, 0, 0, 0] : List Nat).length = kByteLen .AF_INET ∧ 24 ≤ bitWidth .AF_INET) ∧
    (∃ Tp Tq Tpq : PrefixSet,
      lowerHalf.addParsed [128, 0, 0, 0] ((1 : Nat) : Int) = .ok (Tp, true) ∧
      Tp.addParsed [10, 0, 0, 0] ((24 : Nat) : Int) = .ok (Tpq, true) ∧
      lowerHalf.addParsed [10, 0, 0, 0] ((24 : Nat) : Int) = .ok (Tq, true) ∧
      Tq.addParsed [128, 0, 0, 0] ((1 : Nat) : Int) = .ok (Tpq, true)) ∧
    (lowerHalf.addParsed [128, 0, 0, 0] ((1 : Nat) : Int) = .ok (everything, true) ∧
      everything.addParsed [10, 0, 0, 0] ((24 : Nat) : Int) = .ok (everything, true) ∧
      lowerHalf.addParsed [10, 0, 0, 0] ((24 : Nat) : Int) = .ok (lowerHalf, true) ∧
      lowerHalf.addParsed [128, 0, 0, 0] ((1 : Nat) : Int) = .ok (everything, true)) ∧
    lowerHalf = lowerHalf :=
  ⟨⟨.add PrefixSet.empty lowerHalf [0, 0, 0, 0] 1 true .empty rfl (by decide) rfl,
      by decide, by decide, by decide, by decide⟩,
    (insertion_order_irrelevant .AF_INET).1 lowerHalf [128, 0, 0, 0] [10, 0, 0, 0] 1 24
      (.add PrefixSet.empty lowerHalf [0, 0, 0, 0] 1 true .empty rfl (by decide) rfl)
      (by decide) (by decide) (by decide) (by decide),
    ⟨rfl, rfl, rfl, rfl⟩,
    (insertion_order_irrelevant .AF_INET).2 lowerHalf lowerHalf
      (.add PrefixSet.empty lowerHalf [0, 0, 0, 0] 1 true .empty rfl (by decide) rfl)
      (.add PrefixSet.empty lowerHalf [0, 0, 0, 0] 1 true .empty rfl (by decide) rfl)
      (fun _ _ _ => rfl)⟩

/-! ## add followed by getAll on the empty set -/

set_option maxRecDepth 1000000 in
theorem byteSetBitFacts : ∀ j, j < 8 → ∀ i, i < 8 → ∀ c, c < 256 →
    (!decide (c % 2 ^ (8 - j) = 0) ||
      ((((((c + 2 ^ (7 - j)) >>> (7 - i)) &&& 1) == 1) ==
          (decide (i = j) || (((c >>> (7 - i)) &&& 1) == 1))) &&
       (!decide (j ≤ i) || !(((c >>> (7 - i)) &&& 1) == 1)))) = true := by
  decide

theorem byte_bit_after_set (j i c : Nat) (hj : j < 8) (hi : i < 8) (hc : c < 256)
    (hmod : c % 2 ^ (8 - j) = 0) :
    ((((c + 2 ^ (7 - j)) >>> (7 - i)) &&& 1) == 1) =
      (decide (i = j) || (((c >>> (7 - i)) &&& 1) == 1)) := by
  have := byteSetBitFacts j hj i hi c hc
  simp only [hmod, decide_True, Bool.not_true, Bool.false_or, Bool.and_eq_true,
    beq_iff_eq] at this
  exact this.1

theorem byte_bit_clear (j i c : Nat) (hj : j < 8) (hi : i < 8) (hc : c < 256)
    (hmod : c % 2 ^ (8 - j) = 0) (hji : j ≤ i) :
    (((c >>> (7 - i)) &&& 1) == 1) = false := by
  have := byteSetBitFacts j hj i hi c hc
  simp only [hmod, hji, decide_True, Bool.not_true, Bool.false_or, Bool.and_eq_true,
    Bool.not_eq_true'] at this
  exact this.2

theorem bitOf_eq (buf : List Nat) (i x : Nat) (h : buf.get? (i / 8) = some x) :
    bitOf buf i = (((x >>> (7 - i % 8)) &&& 1) == 1) := by
  simp only [List.get?_eq_getElem?] at h
  simp [bitOf, bitAt, h]

theorem bitOf_of_clear (buf : List Nat) (d i : Nat) (hbuf : BufferClearFrom buf d)
    (hdi : d ≤ i) (hi : i < 8 * buf.length) : bitOf buf i = false := by
  obtain ⟨x, hx⟩ := get?_of_lt buf (i / 8) (by omega)
  rw [bitOf_eq buf i x hx]
  obtain ⟨h1, h2, h3⟩ := hbuf (i / 8) x hx
  by_cases hk : d ≤ 8 * (i / 8)
  · rw [h2 hk]; simp
  · have hsame : i / 8 = d / 8 := by omega
    exact byte_bit_clear (d % 8) (i % 8) x (Nat.mod_lt _ (by norm_num))
      (Nat.mod_lt _ (by norm_num)) h1 (h3 hsame) (by omega)

theorem bitOf_set (buf : List Nat) (d c i : Nat) (hbuf : BufferClearFrom buf d)
    (hc : buf.get? (d / 8) = some c) (hi : i < 8 * buf.length) :
    bitOf (buf.set (d / 8) (c + 2 ^ (7 - d % 8))) i = (decide (i = d) || bitOf buf i) := by
  have hd := get?_lt hc
  obtain ⟨h1, -, h3⟩ := hbuf (d / 8) c hc
  by_cases hk : i / 8 = d / 8
  · have hget : (buf.set (d / 8) (c + 2 ^ (7 - d % 8))).get? (i / 8)
        = some (c + 2 ^ (7 - d % 8)) := by
      rw [hk]; simp [List.getElem?_set, hd]
    rw [bitOf_eq _ i _ hget, bitOf_eq buf i c (by rw [hk]; exact hc)]
    rw [byte_bit_after_set (d % 8) (i % 8) c (Nat.mod_lt _ (by norm_num))
      (Nat.mod_lt _ (by norm_num)) h1 (h3 rfl)]
    congr 1
    simp only [decide_eq_decide]
    omega
  · obtain ⟨x, hx⟩ := get?_of_lt buf (i / 8) (by omega)
    have hget : (buf.set (d / 8) (c + 2 ^ (7 - d % 8))).get? (i / 8) = some x := by
      simpa [List.getElem?_set, Ne.symm hk] using hx
    rw [bitOf_eq _ i _ hget, bitOf_eq buf i x hx]
    have : i ≠ d := fun h => hk (by rw [h])
    simp [this]

theorem addPath_ctor_cons (bit : Bool) (bits : List Bool) :
    (addPath (bit :: bits) Node.ctor).1
      = Node.ctor.setChildren bit (addPath bits Node.ctor).1.addr := by
  have hco : (Node.ctor.setChildren bit (addPath bits Node.ctor).1.addr).canCoalesce = false := by
    rw [canCoalesce_eq]
    cases bit <;> simp [Node.setChildren, Node.ctor, NodePtr.isTerminal]
  have hchild : (Node.ctor.children bit).orNew = Node.ctor := by cases bit <;> rfl
  rcases addPath_cases bit bits Node.ctor with ⟨ht, -⟩ | ⟨-, -, hc, -⟩ | ⟨-, -, h⟩
  · simp [Node.ctor] at ht
  · rw [hchild, hco] at hc; simp at hc
  · rw [h, hchild]

theorem getAllRecur_chain (addr : List Nat) (k : Nat) :
    ∀ (d : Nat) (isRoot : Bool) (buf : List Nat) (out : List (List Nat × Nat)),
      BufferClearFrom buf d → d + k ≤ 8 * buf.length →
      ∃ m : List Nat,
        getAllRecur isRoot (addPath (bitsFrom addr d k) Node.ctor).1.addr buf d out
          = .ok (buf, out ++ [(m, d + k)]) ∧
        m.length = buf.length ∧ BufferClearFrom m (d + k) ∧
        ∀ i, i < 8 * buf.length →
          bitOf m i = if i < d then bitOf buf i else (decide (i < d + k) && bitOf addr i) := by
  induction k with
  | zero =>
    intro d isRoot buf out hbuf hd
    refine ⟨buf, by simp [bitsFrom, addPath, Node.setTerminal, Node.addr, getAllRecur], rfl,
      hbuf, fun i hi => ?_⟩
    by_cases hid : i < d
    · simp [hid]
    · simp only [hid, if_false, Nat.add_zero, decide_False, Bool.false_and]
      exact bitOf_of_clear buf d i hbuf (by omega) hi
  | succ k ih =>
    intro d isRoot buf out hbuf hd
    have hdlt : d < 8 * buf.length := by omega
    obtain ⟨c, hc⟩ := get?_of_lt buf (d / 8) (by omega)
    obtain ⟨hc1, -, hc3⟩ := hbuf (d / 8) c hc
    obtain ⟨hor, hand, -, -⟩ :=
      byteBitFacts (d % 8) (Nat.mod_lt _ (by norm_num)) c hc1 (hc3 rfl)
    have hk := get?_lt hc
    have hback : (buf.set (d / 8) (c + 2 ^ (7 - d % 8)))[d / 8]?
        = some (c + 2 ^ (7 - d % 8)) := by
      simp [List.getElem?_set, hk]
    have hrestore2 : buf.set (d / 8)
        ((c + 2 ^ (7 - d % 8)) &&& (255 ^^^ (1 <<< (7 - d % 8)))) = buf := by
      rw [hand]
      exact set_of_get? _ _ _ hc
    have hrestore : (buf.set (d / 8) (c + 2 ^ (7 - d % 8))).set (d / 8)
        ((c + 2 ^ (7 - d % 8)) &&& (255 ^^^ (1 <<< (7 - d % 8)))) = buf := by
      rw [hand, List.set_set]
      exact set_of_get? _ _ _ hc
    have hsum : d + 1 + k = d + (k + 1) := by omega
    simp only [bitsFrom, addPath_ctor_cons]
    cases hbit : bitOf addr d with
    | false =>
      obtain ⟨m, hrun, hlen, hclear, hbits⟩ :=
        ih (d + 1) false buf out (bufferClearFrom_succ _ _ hbuf) (by omega)
      rw [hsum] at hrun hclear hbits
      refine ⟨m, ?_, hlen, hclear, fun i hi => ?_⟩
      · have hq : (addPath (bitsFrom addr (d + 1) k) Node.ctor).1.addr ≠ .NULL := by
          simp [Node.addr]
        generalize (addPath (bitsFrom addr (d + 1) k) Node.ctor).1.addr = q at hrun hq
        have hnode : (Node.ctor.setChildren false q).addr = .ptr q .NULL false := rfl
        rw [hnode]
        unfold getAllRecur
        simp only [Bool.false_eq_true, if_false, hrun, hc, hor]
        simp [getAllRecur, hback, hrestore, hrestore2, hq]
      · rw [hbits i hi]
        by_cases hid : i < d
        · simp [hid, show i < d + 1 by omega]
        · by_cases hidd : i = d
          · subst hidd
            simp [hbit, bitOf_of_clear buf i i hbuf (le_refl _) hi]
          · simp [hid, show ¬ i < d + 1 by omega]
    | true =>
      have hbuf1 := bufferClearFrom_set _ _ _ hbuf hc
      obtain ⟨m, hrun, hlen, hclear, hbits⟩ :=
        ih (d + 1) false (buf.set (d / 8) (c + 2 ^ (7 - d % 8))) out hbuf1
          (by simp only [List.length_set]; omega)
      rw [hsum] at hrun hclear hbits
      simp only [List.length_set] at hlen hbits
      refine ⟨m, ?_, hlen, hclear, fun i hi => ?_⟩
      · have hq : (addPath (bitsFrom addr (d + 1) k) Node.ctor).1.addr ≠ .NULL := by
          simp [Node.addr]
        generalize (addPath (bitsFrom addr (d + 1) k) Node.ctor).1.addr = q at hrun hq
        have hnode : (Node.ctor.setChildren true q).addr = .ptr .NULL q false := rfl
        have hnull : getAllRecur false .NULL buf (d + 1) out = .ok (buf, out) := rfl
        rw [hnode]
        unfold getAllRecur
        simp only [Bool.false_eq_true, if_false, hnull, hc, hor, hrun]
        simp [hback, hrestore, hrestore2, hq]
      · rw [hbits i hi, bitOf_set buf d c i hbuf hc hi]
        by_cases hid : i < d
        · simp [hid, show i < d + 1 by omega, show i ≠ d by omega]
        · by_cases hidd : i = d
          · subst hidd
            simp [hbit]
          · simp [hid, show ¬ i < d + 1 by omega]

/-- C19: round trip of `add` and `getAll` on the empty set.  For every address buffer of
the family and every length `n` with `0 ≤ n ≤ W`, `add` on the empty set completes, and
the traversal of `getAll` then yields exactly one entry: its length is `n`, its address
has the byte length of the family, with the first `n` bits of the input address and every
later bit zero; the scratch buffer is all zero again when the traversal ends. -/
theorem add_getAll_round_trip (fam : AddrFamily) (addr : List Nat) (n : Nat)
    (hlen : addr.length = kByteLen fam) (hn : n ≤ bitWidth fam) :
    ∃ (T : PrefixSet) (masked : List Nat),
      PrefixSet.empty.addParsed addr n = .ok (T, true) ∧
      getAllRecur true T.root_.addr (List.replicate (kByteLen fam) 0) 0 []
        = .ok (List.replicate (kByteLen fam) 0, [(masked, n)]) ∧
      T.getAll fam = .ok [(masked, n)] ∧
      masked.length = kByteLen fam ∧ (∀ c ∈ masked, c < 256) ∧
      ∀ i, i < bitWidth fam → bitOf masked i = (decide (i < n) && bitOf addr i) := by
  have hadd := addParsed_eq PrefixSet.empty addr n (by rw [hlen]; exact hn)
  obtain ⟨m, hrun, hmlen, hclear, hbits⟩ := getAllRecur_chain addr n 0 true
    (List.replicate (kByteLen fam) 0) [] (bufferClearFrom_replicate _)
    (by simpa [bitWidth] using hn)
  simp only [Nat.zero_add, List.nil_append, List.length_replicate] at hrun hmlen hbits
  refine ⟨_, m, hadd, hrun, ?_, hmlen, ?_, fun i hi => ?_⟩
  · simp only [PrefixSet.getAll]
    have hroot : PrefixSet.empty.root_ = Node.ctor := rfl
    rw [hroot, hrun]
  · intro c hc
    obtain ⟨k, hk⟩ := List.mem_iff_get?.mp hc
    exact (hclear k c hk).1
  · have := hbits i hi
    simpa using this

theorem add_getAll_round_trip_witness :
    (([10, 1, 2, 3] : List Nat).length = kByteLen .AF_INET ∧ 20 ≤ bitWidth .AF_INET) ∧
    (∃ (T : PrefixSet) (masked : List Nat),
      PrefixSet.empty.addParsed [10, 1, 2, 3] ((20 : Nat) : Int) = .ok (T, true) ∧
      getAllRecur true T.root_.addr (List.replicate (kByteLen .AF_INET) 0) 0 []
        = .ok (List.replicate (kByteLen .AF_INET) 0, [(masked, 20)]) ∧
      T.getAll .AF_INET = .ok [(masked, 20)] ∧
      masked.length = kByteLen .AF_INET ∧ (∀ c ∈ masked, c < 256) ∧
      ∀ i, i < bitWidth .AF_INET → bitOf masked i = (decide (i < 20) && bitOf [10, 1, 2, 3] i)) ∧
    (match PrefixSet.empty.addParsed [10, 1, 2, 3] ((20 : Nat) : Int) with
      | .ok (T, _) => T.getAll .AF_INET
      | .error e => .error e) = .ok [([10, 1, 0, 0], 20)] :=
  ⟨⟨by decide, by decide⟩,
    add_getAll_round_trip .AF_INET [10, 1, 2, 3] 20 (by decide) (by decide), rfl⟩

end NetworkUtils
